/-
Verification of the PDF split/upload orchestration engine
(preflight validation, chunked fan-out, per-item status records,
fan-in aggregation, admission control, atomic state-store writes).

The Python source (`processing/tasks.py`, `processing/split_spec.py`,
`pdfs/views_processor_ui.py`) is shallowly embedded below: pure helpers
become Lean functions on `List Char` / `Nat`; filesystem and collaborator
effects become explicit inputs (environment records and oracles) and
explicit outputs (written payloads, scheduled task lists).
-/
import Mathlib

set_option maxHeartbeats 1000000
set_option linter.unusedVariables false

namespace HyperlinkPOC

/-! ## Characters and decimal numerals

Python's `\d` on the inputs relevant here is the ASCII digits, and the
whitespace characters that can survive `normalize_split_spec` are the ASCII
ones; both are modelled accordingly. -/

/-- The characters Python's `\s` (and `str.strip()`) treats as whitespace,
restricted to ASCII. -/
def isPySpace (c : Char) : Bool :=
  c = ' ' || c = '\t' || c = '\n' || c = '\r' || c = '\x0b' || c = '\x0c'

/-- ASCII decimal digit (code points 48–57), Python's `\d` for the inputs at
hand. -/
def isDigitChar (c : Char) : Bool :=
  48 ≤ c.toNat && c.toNat ≤ 57

/-- Value of a digit character. -/
def digitVal (c : Char) : Nat := c.toNat - 48

/-- `int(...)` on a string of decimal digits: fold left, base 10. -/
def digitsToNat (l : List Char) : Nat :=
  l.foldl (fun a c => a * 10 + digitVal c) 0

/-- The digit character for `d < 10` (`f"{n}"` building block). -/
def digitChar (d : Nat) : Char := Char.ofNat (48 + d)

/-- Canonical decimal numeral, fuelled so that it is structurally recursive
(any fuel above the value itself is enough). -/
def natCharsAux : Nat → Nat → List Char
  | 0, _ => []
  | fuel + 1, n =>
    if n < 10 then [digitChar n]
    else natCharsAux fuel (n / 10) ++ [digitChar (n % 10)]

/-- Canonical decimal numeral of a natural number, most significant digit
first — the character list of Python's `f"{n}"`. -/
def natChars (n : Nat) : List Char := natCharsAux (n + 1) n

theorem natCharsAux_irrel :
    ∀ n f₁ f₂, n < f₁ → n < f₂ → natCharsAux f₁ n = natCharsAux f₂ n := by
  intro n
  induction n using Nat.strong_induction_on with
  | _ n ih =>
    intro f₁ f₂ h₁ h₂
    match f₁, f₂ with
    | g₁ + 1, g₂ + 1 =>
      simp only [natCharsAux]
      by_cases h : n < 10
      · simp [h]
      · simp only [h, if_false]
        have hdiv : n / 10 < n := Nat.div_lt_self (by omega) (by omega)
        rw [ih (n / 10) hdiv g₁ g₂ (by omega) (by omega)]

theorem natChars_unfold (n : Nat) :
    natChars n = if n < 10 then [digitChar n]
      else natChars (n / 10) ++ [digitChar (n % 10)] := by
  show natCharsAux (n + 1) n = _
  by_cases h : n < 10
  · simp [natCharsAux, h]
  · simp only [natCharsAux, h, if_false]
    rw [natCharsAux_irrel (n / 10) n (n / 10 + 1)
      (Nat.div_lt_self (by omega) (by omega)) (by omega)]
    rfl

theorem natChars_ne_nil (n : Nat) : natChars n ≠ [] := by
  rw [natChars_unfold]
  split <;> simp

theorem isDigitChar_digitChar {d : Nat} (h : d < 10) :
    isDigitChar (digitChar d) = true := by
  interval_cases d <;> decide

theorem digitVal_digitChar {d : Nat} (h : d < 10) :
    digitVal (digitChar d) = d := by
  interval_cases d <;> decide

theorem natChars_all_digits (n : Nat) :
    ∀ c ∈ natChars n, isDigitChar c = true := by
  induction n using Nat.strong_induction_on with
  | _ n ih =>
    rw [natChars_unfold]
    by_cases h : n < 10
    · rw [if_pos h]
      intro c hc
      simp only [List.mem_singleton] at hc
      subst hc
      exact isDigitChar_digitChar h
    · rw [if_neg h]
      intro c hc
      simp only [List.mem_append, List.mem_singleton] at hc
      rcases hc with hc | hc
      · exact ih (n / 10) (Nat.div_lt_self (by omega) (by omega)) c hc
      · subst hc
        exact isDigitChar_digitChar (Nat.mod_lt _ (by omega))

theorem digitsToNat_append (a b : List Char) :
    digitsToNat (a ++ b) = b.foldl (fun x c => x * 10 + digitVal c) (digitsToNat a) := by
  simp [digitsToNat, List.foldl_append]

/-- Parsing the canonical numeral recovers the number. -/
theorem digitsToNat_natChars (n : Nat) : digitsToNat (natChars n) = n := by
  induction n using Nat.strong_induction_on with
  | _ n ih =>
    rw [natChars_unfold]
    by_cases h : n < 10
    · rw [if_pos h]
      simp [digitsToNat, digitVal_digitChar h]
    · rw [if_neg h, digitsToNat_append, ih (n / 10) (Nat.div_lt_self (by omega) (by omega))]
      simp [digitVal_digitChar (Nat.mod_lt n (show 0 < 10 by omega))]
      omega

/-! ## `normalize_split_spec` (split_spec.py lines 5–10)

Each `re.sub`/`str.replace`/`str.strip` stage becomes one recursive function
on `List Char`. -/

theorem dropWhile_length_le (p : Char → Bool) :
    ∀ l : List Char, (l.dropWhile p).length ≤ l.length
  | [] => le_refl _
  | c :: cs => by
    simp only [List.dropWhile_cons]
    by_cases h : p c
    · simp only [h, if_true]
      exact le_trans (dropWhile_length_le p cs) (by simp)
    · simp [h]

/-- `str.strip()` from the left. -/
def lstrip (l : List Char) : List Char := l.dropWhile isPySpace

/-- `str.strip()` from the right. -/
def rstrip (l : List Char) : List Char := (l.reverse.dropWhile isPySpace).reverse

/-- `str.strip()`. -/
def pyStrip (l : List Char) : List Char := rstrip (lstrip l)

/-- `s.replace('\u00A0', ' ')`. -/
def replaceNbsp (l : List Char) : List Char :=
  l.map (fun c => if c = '\u00A0' then ' ' else c)

/-- `s.replace('–', '-').replace('—', '-').replace('‑', '-')` (en dash,
em dash, non-breaking hyphen, each a single character). -/
def replaceDashes (l : List Char) : List Char :=
  l.map (fun c => if c = '–' || c = '—' || c = '‑' then '-' else c)

/-- `re.sub(r'\s+', ' ', s)` as a one-pass scanner: `inRun` records that the
current maximal whitespace run has already emitted its single `' '`. -/
def wsCollapseAux : Bool → List Char → List Char
  | _, [] => []
  | inRun, c :: cs =>
    if isPySpace c then
      if inRun then wsCollapseAux true cs
      else ' ' :: wsCollapseAux true cs
    else c :: wsCollapseAux false cs

/-- `re.sub(r'\s+', ' ', s)`: each maximal whitespace run becomes one space. -/
def wsCollapse (l : List Char) : List Char := wsCollapseAux false l

/-- `re.sub(r'\s*,\s*', ', ', s)` as a one-pass scanner. `pend` holds (in
reverse) a whitespace run not yet known to precede a comma: it is dropped if
a comma follows (it is the match's leading `\s*`), flushed verbatim
otherwise. `skip` means the scanner sits in the trailing `\s*` of a match,
whose whitespace is consumed; a comma met there starts the next match
directly. -/
def commaSubAux : Bool → List Char → List Char → List Char
  | skip, pend, [] => pend.reverse
  | skip, pend, c :: cs =>
    if isPySpace c then
      if skip then commaSubAux true pend cs
      else commaSubAux false (c :: pend) cs
    else if c = ',' then ',' :: ' ' :: commaSubAux true [] cs
    else pend.reverse ++ c :: commaSubAux false [] cs

/-- `re.sub(r'\s*,\s*', ', ', s)`: leftmost-first replacement of every
comma (with its surrounding whitespace) by `', '`. -/
def commaSub (l : List Char) : List Char := commaSubAux false [] l

/-- `normalize_split_spec` (split_spec.py lines 5–10). -/
def normalize_split_spec (s : List Char) : List Char :=
  let s1 := pyStrip (replaceNbsp s)
  let s2 := replaceDashes s1
  let s3 := wsCollapse s2
  let s4 := commaSub s3
  pyStrip s4

/-! ## `parse_split_groups` (split_spec.py lines 13–52) -/

/-- The separator class of `re.split(r'[;\n]+', ...)`. -/
def isGroupSep (c : Char) : Bool := c = ';' || c = '\n'

/-- `re.split(r'[;\n]+', s)` as a one-pass scanner: `acc` is the piece under
construction, `inSep` that the scanner sits inside a separator run (the piece
before it has been emitted). -/
def splitRunsAux : Bool → List Char → List Char → List (List Char)
  | _, acc, [] => [acc]
  | inSep, acc, c :: cs =>
    if isGroupSep c then
      if inSep then splitRunsAux true acc cs
      else acc :: splitRunsAux true [] cs
    else splitRunsAux false (acc ++ [c]) cs

/-- `re.split(r'[;\n]+', s)`: pieces between maximal separator runs
(leading/trailing runs contribute empty pieces, filtered out by the caller). -/
def splitRuns (l : List Char) : List (List Char) := splitRunsAux false [] l

/-- Python `str.split(sep)` for a one-character separator. -/
def pySplit (sep : Char) : List Char → List (List Char)
  | [] => [[]]
  | c :: cs =>
    if c = sep then [] :: pySplit sep cs
    else
      match pySplit sep cs with
      | p :: t => (c :: p) :: t
      | [] => [[c]]

/-- `re.match(r'^(\d+)\s*-\s*(\d+)$', part)`: the greedy `\d+`/`\s*` are
maximal takes, since no backtracked shorter take can let the next atom
match. -/
def matchRangePart (l : List Char) : Option (Nat × Nat) :=
  let ds1 := l.takeWhile isDigitChar
  let r1 := l.dropWhile isDigitChar
  if ds1.isEmpty then none
  else
    match r1.dropWhile isPySpace with
    | '-' :: r3 =>
      let r4 := r3.dropWhile isPySpace
      let ds2 := r4.takeWhile isDigitChar
      let r5 := r4.dropWhile isDigitChar
      if ds2.isEmpty || !r5.isEmpty then none
      else some (digitsToNat ds1, digitsToNat ds2)
    | _ => none

/-- `re.match(r'^(\d+)$', part)`. -/
def matchSinglePart (l : List Char) : Option Nat :=
  if !l.isEmpty && l.all isDigitChar then some (digitsToNat l) else none

/-- One parsed output group: normalized label and 1-based page segments. -/
structure SplitGroup where
  label : List Char
  segments : List (Nat × Nat)
deriving Repr, DecidableEq

/-- The canonical text of one segment:
`f"{start}-{end}" if start != end else f"{start}"` (split_spec.py line 47). -/
def segmentChars (seg : Nat × Nat) : List Char :=
  if seg.1 ≠ seg.2 then natChars seg.1 ++ '-' :: natChars seg.2
  else natChars seg.1

/-- Parse one comma-separated part (split_spec.py lines 30–47), returning
the segment and its normalized text. -/
def parsePart (part0 : List Char) : Except String ((Nat × Nat) × List Char) :=
  let part := normalize_split_spec part0
  let matched : Option (Nat × Nat) :=
    match matchRangePart part with
    | some se => some se
    | none => (matchSinglePart part).map (fun n => (n, n))
  match matched with
  | none => .error ("Invalid segment: '" ++ String.mk part ++ "'. Use 1-4 or 55")
  | some (s, e) =>
    if s < 1 || e < 1 || e < s then
      .error ("Invalid segment: '" ++ String.mk part ++
        "'. Ensure start/end are positive and end >= start")
    else .ok ((s, e), segmentChars (s, e))

/-- The part loop of one group: first failure aborts, otherwise the
segments and normalized parts accumulate in order. -/
def parseParts : List (List Char) → Except String (List ((Nat × Nat) × List Char))
  | [] => .ok []
  | p :: ps =>
    match parsePart p with
    | .error e => .error e
    | .ok r => (parseParts ps).map (r :: ·)

/-- `', '.flatten(parts)`. -/
def joinComma : List (List Char) → List Char
  | [] => []
  | [p] => p
  | p :: ps => p ++ ',' :: ' ' :: joinComma ps

/-- Parse one `;`-separated group (split_spec.py lines 23–50). -/
def parseGroup (group_raw : List Char) : Except String SplitGroup :=
  let parts := ((pySplit ',' group_raw).map pyStrip).filter (fun p => !p.isEmpty)
  if parts.isEmpty then .error ("Invalid group: '" ++ String.mk group_raw ++ "'")
  else
    (parseParts parts).map (fun rs =>
      { label := joinComma (rs.map Prod.snd)
        segments := rs.map Prod.fst })

/-- The group loop (split_spec.py lines 22–50). -/
def parseGroups : List (List Char) → Except String (List SplitGroup)
  | [] => .ok []
  | g :: gs =>
    match parseGroup g with
    | .error e => .error e
    | .ok grp => (parseGroups gs).map (grp :: ·)

/-- `parse_split_groups` (split_spec.py lines 13–52). -/
def parse_split_groups (ranges_text0 : List Char) : Except String (List SplitGroup) :=
  let ranges_text := normalize_split_spec ranges_text0
  if ranges_text.isEmpty then .error "Page ranges are required"
  else
    let groups_raw := ((splitRuns ranges_text).map pyStrip).filter (fun g => !g.isEmpty)
    if groups_raw.isEmpty then .error "Page ranges are required"
    else parseGroups groups_raw

example :
    parse_split_groups "1-3, 5; 7".data =
      .ok [⟨"1-3, 5".data, [(1, 3), (5, 5)]⟩, ⟨"7".data, [(7, 7)]⟩] := by
  rfl

/-! ## Job and item state (tasks.py)

Phase-level `state.json` statuses and per-item status records. Item Workers
only ever write `SUCCESS` or `FAILED` into a status record
(`upload_split_file_job`, `split_pdf_chunk_job`). -/

inductive JobStatus
  | RUNNING
  | SUCCESS
  | PARTIAL_SUCCESS
  | FAILED
deriving Repr, DecidableEq

inductive ItemResult
  | SUCCESS
  | FAILED
deriving Repr, DecidableEq

structure Counts where
  total : Nat
  done : Nat
  failed : Nat
deriving Repr, DecidableEq

/-- A phase-level state payload (the fields the claims touch). `counts` is
`none` for the early-failure states that are written without a counts key. -/
structure PhaseState where
  status : JobStatus
  progress : Nat
  error : Option String
  counts : Option Counts
deriving Repr, DecidableEq

/-! ## Finalizers (tasks.py lines 516–578 and 763–829) -/

/-- `finalize_split_job`: aggregate the per-output status records found under
`output_status/` (in file order); `manifestTotal` is `total_outputs` from
`manifest.json` when that file exists and parses (`0`/absent fall back to
`max(len(outputs), len(results or []))`); `chordResults` is the length of the
chord's results list. -/
def finalize_split_job (manifestTotal : Option Nat) (records : List ItemResult)
    (chordResults : Nat) : PhaseState :=
  let total0 := manifestTotal.getD 0
  let done := records.countP (· = ItemResult.SUCCESS)
  let failed := records.countP (· = ItemResult.FAILED)
  let total := if total0 = 0 then max records.length chordResults else total0
  { status := if failed = 0 then .SUCCESS else .PARTIAL_SUCCESS
    progress := 100
    error := none
    counts := some ⟨total, done, failed⟩ }

/-- `finalize_upload_job`: one entry of `files` per manifest item, holding the
status record read from its `status_path` (`none` when the status file is
missing or unreadable). Returns the written state and whether the finalizer
re-schedules itself (`running`). `progress` uses natural division where the
source computes `int(float)`; the claims do not touch `progress`. -/
def finalize_upload_job (manifestExists : Bool)
    (files : List (Option ItemResult)) : PhaseState × Bool :=
  if ¬manifestExists then
    (⟨.FAILED, 100, some "Upload manifest not found", none⟩, false)
  else
    let done := files.countP (· = some ItemResult.SUCCESS)
    let failed := files.countP (· = some ItemResult.FAILED)
    let total := files.length
    let progress := (done + failed) * 100 / max 1 total
    let running := done + failed < total
    (⟨if running then .RUNNING else if failed = 0 then .SUCCESS else .PARTIAL_SUCCESS,
      if running then progress else 100,
      none,
      some ⟨total, done, failed⟩⟩, running)

/-! ## Admission controller (views_processor_ui.py lines 47–69, 240–248) -/

/-- The structured "system busy" JSON payload. -/
structure BusyPayload where
  success : Bool
  error : String
  busy : Bool
  running_total : Nat
  running_async : Nat
  max_running_total : Nat
  max_running_async : Nat
deriving Repr, DecidableEq

/-- `_async_capacity_allows_new_job`: `running_total`/`running_async` are the
`ProcessingRun` counts with status RUNNING (all, and ASYNC-mode only);
`max_total`/`max_async` the two configured ceilings. -/
def async_capacity_allows_new_job (running_total running_async max_total max_async : Nat) :
    Bool × Option BusyPayload :=
  if running_total ≥ max_total ∨ running_async ≥ max_async then
    (false, some
      { success := false
        error := "System is busy. Please try again in a few minutes."
        busy := true
        running_total := running_total
        running_async := running_async
        max_running_total := max_total
        max_running_async := max_async })
  else (true, none)

/-- The non-capacity inputs of a submission request. -/
structure SubmitRequest where
  hasFile : Bool
  filenameIsPdf : Bool
  pageRanges : List Char
deriving Repr, DecidableEq

/-- The observable outcome of `start_preflight_split`: HTTP status, busy
payload if any, and whether a job was created (inputs persisted and the
preflight task enqueued). -/
structure SubmitResult where
  httpStatus : Nat
  busyPayload : Option BusyPayload
  jobCreated : Bool
deriving Repr, DecidableEq

/-- `start_preflight_split` (views_processor_ui.py lines 243–278): the
admission gate runs first; a capacity rejection returns HTTP 429 with the
busy payload before any input validation or job creation. -/
def start_preflight_split (running_total running_async max_total max_async : Nat)
    (req : SubmitRequest) : SubmitResult :=
  match async_capacity_allows_new_job running_total running_async max_total max_async with
  | (false, payload) => ⟨429, payload, false⟩
  | (true, _) =>
    if ¬req.hasFile then ⟨400, none, false⟩
    else if ¬req.filenameIsPdf then ⟨400, none, false⟩
    else if (pyStrip req.pageRanges).isEmpty then ⟨400, none, false⟩
    else ⟨200, none, true⟩

/-! ## Chunked fan-out (tasks.py lines 463–494) -/

/-- Python `range(start, stop, step)`, fuelled to stay structurally
recursive; any fuel above the iteration count gives the same list. -/
def pyRangeAux : Nat → Nat → Nat → Nat → List Nat
  | 0, _, _, _ => []
  | fuel + 1, start, stop, step =>
    if start < stop then start :: pyRangeAux fuel (start + step) stop step else []

/-- Python `range(start, stop, step)` for a positive step. -/
def pyRange (start stop step : Nat) : List Nat :=
  pyRangeAux (stop - start + 1) start stop step

theorem pyRangeAux_irrel {step : Nat} (hs : 0 < step) :
    ∀ (k f₁ f₂ start stop : Nat), stop - start ≤ k →
      stop - start < f₁ → stop - start < f₂ →
      pyRangeAux f₁ start stop step = pyRangeAux f₂ start stop step := by
  intro k
  induction k with
  | zero =>
    intro f₁ f₂ start stop hk h₁ h₂
    match f₁, f₂ with
    | g₁ + 1, g₂ + 1 =>
      simp only [pyRangeAux]
      have : ¬start < stop := by omega
      simp [this]
  | succ k ih =>
    intro f₁ f₂ start stop hk h₁ h₂
    match f₁, f₂ with
    | g₁ + 1, g₂ + 1 =>
      simp only [pyRangeAux]
      by_cases h : start < stop
      · simp only [h, if_true]
        rw [ih g₁ g₂ (start + step) stop (by omega) (by omega) (by omega)]
      · simp [h]

theorem pyRangeAux_succ (fuel start stop step : Nat) :
    pyRangeAux (fuel + 1) start stop step =
      if start < stop then start :: pyRangeAux fuel (start + step) stop step
      else [] := rfl

theorem pyRange_unfold {step : Nat} (hs : 0 < step) (start stop : Nat) :
    pyRange start stop step =
      if start < stop then start :: pyRange (start + step) stop step else [] := by
  unfold pyRange
  rw [pyRangeAux_succ]
  by_cases h : start < stop
  · simp only [h, if_true]
    congr 1
    exact pyRangeAux_irrel hs (stop - (start + step)) _ _ (start + step) stop
      (le_refl _) (by omega) (by omega)
  · simp [h]

/-- The fan-out loop of `split_pdf_job` (tasks.py lines 484–494):
`for start in range(0, len(outputs), chunk_size):
chunk = outputs[start:start + chunk_size]`, one scheduled chunk task per
iteration. -/
def fanoutChunks {α : Type} (outputs : List α) (chunk_size : Nat) : List (List α) :=
  (pyRange 0 outputs.length chunk_size).map
    (fun s => (outputs.drop s).take chunk_size)

/-- `int(getattr(settings, 'SPLIT_TASK_CHUNK_SIZE', 10) or 10)` followed by
the `if chunk_size < 1: chunk_size = 10` guard (tasks.py lines 464–466);
a missing setting is `0` here via the falsy-`or`. -/
def effectiveChunkSize (setting : Int) : Nat :=
  let c := if setting = 0 then 10 else setting
  if c < 1 then 10 else c.toNat

/-- `_safe_output_filename` (tasks.py lines 81–85). -/
def safe_output_filename (label : List Char) : List Char :=
  (pyStrip label).map (fun c => if c = ' ' then '_' else c) ++ ".pdf".data

/-! ## `split_pdf_job` (tasks.py lines 372–513) -/

/-- One manifest Work Item of the split phase (its status/output paths are
determined by the index and label and are left implicit). -/
structure SplitOutputItem where
  index : Nat
  page_range : List Char
  filename : List Char
  segments : List (Nat × Nat)
deriving Repr, DecidableEq

/-- What `split_pdf_job` finds on disk and in settings. `inputPdfFound`
collapses the primary location and the `request.json` fallback into one
flag, and `requestRanges` the two `request.json` locations, since the claims
only depend on found/not-found. -/
structure SplitEnv where
  preflightState : Option PhaseState
  inputPdfFound : Bool
  requestRanges : Option (List Char)
  totalPages : Nat
  chunkSizeSetting : Int
deriving Repr, DecidableEq

/-- The observable outcome of `split_pdf_job`: the state it returns (also the
last phase state it writes), the scheduled chunk tasks of the chord header,
and whether the finalize callback was registered. -/
structure SplitJobResult where
  state : PhaseState
  chunks : List (List SplitOutputItem)
  finalizeScheduled : Bool
deriving Repr, DecidableEq

/-- A `split_pdf_job` run that raises before fan-out: FAILED state written,
nothing scheduled. -/
def splitJobFailure (e : String) : SplitJobResult :=
  ⟨⟨.FAILED, 100, some e, some ⟨0, 0, 0⟩⟩, [], false⟩

/-- The manifest outputs list (tasks.py lines 446–461):
`for idx, grp in enumerate(groups, 1)`. -/
def splitOutputs (groups : List SplitGroup) : List SplitOutputItem :=
  (List.enumFrom 1 groups).map (fun p =>
    { index := p.1
      page_range := p.2.label
      filename := safe_output_filename p.2.label
      segments := p.2.segments })

/-- `split_pdf_job` (tasks.py lines 372–513). The SPLIT phase is gated on the
PREFLIGHT `state.json` reporting SUCCESS; every raised `ValueError` is caught
at lines 508–513, which write a FAILED state and schedule nothing. -/
def split_pdf_job (env : SplitEnv) : SplitJobResult :=
  match env.preflightState with
  | none => splitJobFailure "Preflight has not been run for this job_id"
  | some pf =>
    if pf.status ≠ .SUCCESS then
      splitJobFailure ("Preflight not successful: " ++ (pf.error.getD ""))
    else if ¬env.inputPdfFound then
      splitJobFailure "Input PDF not found for this preflight job"
    else
      match env.requestRanges with
      | none => splitJobFailure "Preflight request.json not found for this job"
      | some ranges =>
        let page_ranges_text := pyStrip ranges
        if page_ranges_text.isEmpty then
          splitJobFailure "Missing page_ranges in request.json"
        else
          match parse_split_groups page_ranges_text with
          | .error e => splitJobFailure e
          | .ok groups =>
            let outputs := splitOutputs groups
            let chunk_size := effectiveChunkSize env.chunkSizeSetting
            { state := ⟨.RUNNING, 0, none, some ⟨outputs.length, 0, 0⟩⟩
              chunks := fanoutChunks outputs chunk_size
              finalizeScheduled := true }

/-! ## `upload_split_job` (tasks.py lines 581–697) -/

/-- Lexicographic comparison of character lists by code point, Python's `<=`
on `str`. -/
def charListLe : List Char → List Char → Bool
  | [], _ => true
  | _ :: _, [] => false
  | a :: as, b :: bs =>
    if a < b then true
    else if b < a then false
    else charListLe as bs

/-- Stable insertion of `x` after every element `y` with `y < x` fails...
`x` moves past `y` exactly when `y` is strictly below it, so equal keys keep
their original order — the stability guarantee of Python's `list.sort`. -/
def stableInsert {α : Type} (le : α → α → Bool) (x : α) : List α → List α
  | [] => [x]
  | y :: ys =>
    if le y x && !le x y then y :: stableInsert le x ys
    else x :: y :: ys

/-- A stable sort, modelling `list.sort(key=...)`. -/
def stableSort {α : Type} (le : α → α → Bool) : List α → List α
  | [] => []
  | x :: xs => stableInsert le x (stableSort le xs)

/-- `p.name.lower()`. -/
def lowerChars (l : List Char) : List Char := l.map Char.toLower

/-- `p.suffix.lower() == '.pdf' and p.name.lower() != 'original.pdf'`
(tasks.py lines 598–601): a regular file whose extension is `.pdf` in any
case, except the persisted original. A name ends in the `.pdf` suffix iff
its last four characters, lowercased, are `.pdf` (the extension cannot end
later than the final dot, which letters cannot follow inside `pdf`). -/
def isSplitPdfName (name : List Char) : Bool :=
  let ln := lowerChars name
  ln.drop (ln.length - 4) == ".pdf".data && ln != "original.pdf".data

/-- The prior content of one per-item status file, as the resume loop sees
it (tasks.py lines 664–672): absent, present but unparseable (the bare
`except: pass`), or a parsed record. -/
inductive PriorRecord
  | absent
  | unreadable
  | record (r : ItemResult)
deriving Repr, DecidableEq

/-- What `upload_split_job` finds on disk and in configuration. The SPLIT
phase's own `state.json` is part of the environment precisely to record that
this task never consults it. -/
structure UploadEnv where
  splitDirExists : Bool
  splitDirListing : List (List Char)
  splitState : Option PhaseState
  rootFolderConfigured : Bool
  resolvedFolder : Option (List Char)
  prior : Nat → PriorRecord

/-- The observable outcome of `upload_split_job`: the state it writes last,
the worker executions enqueued (by 1-based item index), and whether the
finalizer was scheduled. -/
structure UploadJobResult where
  state : PhaseState
  scheduled : List Nat
  finalizeScheduled : Bool

/-- An `upload_split_job` precondition failure: FAILED state written,
nothing scheduled. -/
def uploadJobFailure (e : String) : UploadJobResult :=
  ⟨⟨.FAILED, 100, some e, none⟩, [], false⟩

/-- The resume loop (tasks.py lines 662–682): skip an item iff its status
file exists, parses, and reads `SUCCESS`; enqueue one worker execution for
every other item. -/
def uploadScheduled (prior : Nat → PriorRecord) (n : Nat) : List Nat :=
  (List.range n).map (· + 1) |>.filter (fun i => prior i ≠ .record .SUCCESS)

/-- `upload_split_job` (tasks.py lines 581–697). Note the gates: the split
*folder* must exist and contain split PDFs and Drive must be configured and
resolvable — the SPLIT phase's `state.json` (`env.splitState`) is never
read. -/
def upload_split_job (env : UploadEnv) : UploadJobResult :=
  if ¬env.splitDirExists then uploadJobFailure "Split job folder not found"
  else
    let pdf_files := stableSort
      (fun a b => charListLe (lowerChars a) (lowerChars b))
      (env.splitDirListing.filter isSplitPdfName)
    if pdf_files.isEmpty then uploadJobFailure "No split PDFs found"
    else if ¬env.rootFolderConfigured then
      uploadJobFailure "Drive root folder ID is not configured"
    else
      match env.resolvedFolder with
      | none => uploadJobFailure "Failed to create/find patient folder in Drive"
      | some _ =>
        { state := ⟨.RUNNING, 0, none, some ⟨pdf_files.length, 0, 0⟩⟩
          scheduled := uploadScheduled env.prior pdf_files.length
          finalizeScheduled := true }

/-! ## `upload_split_file_job` (tasks.py lines 700–760) -/

/-- One per-item status record, as written by the upload worker. -/
structure ItemStatusRecord where
  index : Nat
  status : ItemResult
  error : Option String
  file_id : Option (List Char)
  webViewLink : Option (List Char)
  attempts : Nat
deriving Repr, DecidableEq

/-- The observable outcome of one worker execution: every write to its
status path (in order), how many times `drive.upload_file` was invoked, and
the `time.sleep` durations between attempts. The task returns its payload on
every path — it never raises. -/
structure UploadItemResult where
  writes : List ItemStatusRecord
  invocations : Nat
  sleeps : List Nat
deriving Repr, DecidableEq

/-- The retry loop `for attempt in range(1, 4)` (tasks.py lines 728–748):
`remaining` counts loop iterations left, `attempt` the 1-based attempt
number, `lastErr` the last caught error. The terminal FAILED record (lines
750–760) hard-codes `attempts: 3`. -/
def uploadAttemptLoop (index : Nat)
    (oracle : Nat → Except String (List Char × List Char)) :
    Nat → Nat → Option String → UploadItemResult
  | 0, _, lastErr =>
    ⟨[⟨index, .FAILED, lastErr, none, none, 3⟩], 0, []⟩
  | remaining + 1, attempt, _ =>
    match oracle attempt with
    | .ok (fid, link) =>
      ⟨[⟨index, .SUCCESS, none, some fid, some link, attempt⟩], 1, []⟩
    | .error e =>
      let rest := uploadAttemptLoop index oracle remaining (attempt + 1) (some e)
      { writes := rest.writes
        invocations := rest.invocations + 1
        sleeps := (if attempt < 3 then [min 8 (2 ^ attempt)] else []) ++ rest.sleeps }

/-- `upload_split_file_job` (tasks.py lines 700–760). `localPathEmpty` is
`not local_path`, `fileExists` is `os.path.exists(local_path)`; `oracle k`
is what `drive.upload_file` does on the k-th attempt (`.ok (file_id, link)`
or a raised exception rendered as `.error`). -/
def upload_split_file_job (index : Nat) (localPathEmpty fileExists : Bool)
    (oracle : Nat → Except String (List Char × List Char)) : UploadItemResult :=
  if localPathEmpty || !fileExists then
    ⟨[⟨index, .FAILED, some "Local file not found", none, none, 0⟩], 0, []⟩
  else
    uploadAttemptLoop index oracle 3 1 none

/-! ## `preflight_split_job` (tasks.py lines 272–369) -/

/-- The static limits dict (tasks.py lines 280–285). -/
def preflight_max_bytes : Nat := 1 * 1024 * 1024 * 1024
def preflight_max_pages : Nat := 20000
def preflight_max_outputs : Nat := 2000
def preflight_max_total_extracted_pages : Nat := 100000

/-- `@shared_task(bind=True, max_retries=0)` on `preflight_split_job`
(tasks.py line 272); the body never calls `self.retry`. -/
def preflight_split_job_max_retries : Nat := 0

/-- What preflight finds on disk: `inputFound` is
`input_pdf_path and os.path.exists(input_pdf_path)` collapsed to one flag,
`sizeBytes` is `os.path.getsize`, `totalPages` is `get_pdf_page_count`. -/
structure PreflightEnv where
  inputFound : Bool
  sizeBytes : Nat
  totalPages : Nat
  pageRangesText : List Char

/-- The preflight `state.json` payload: fields appear (`some`) once the
corresponding `state.update` has run, and survive into a later FAILED
state. -/
structure PreflightState where
  status : JobStatus
  progress : Nat
  error : Option String
  file_size_bytes : Option Nat
  page_count : Option Nat
  outputs_requested : Option Nat
  total_extracted_pages : Option Nat
deriving Repr, DecidableEq

/-- The `except` handler (tasks.py lines 360–369): mark the current state
FAILED with the raised message. -/
def preflightFail (st : PreflightState) (e : String) : PreflightState :=
  { st with status := .FAILED, progress := 100, error := some e }

/-- The per-segment validation loop (tasks.py lines 331–340): each segment's
end is checked against the page count, then its page count accumulates and
the running total is checked against the cumulative limit. The nested
group/segment loops traverse exactly the flattened segment list. Segments
reach here only out of `parse_split_groups`, which guarantees
`start ≤ end`, so the truncated subtraction agrees with Python. -/
def segCheckLoop (total_pages : Nat) : List (Nat × Nat) → Nat → Except String Nat
  | [], acc => .ok acc
  | (s, e) :: rest, acc =>
    if e > total_pages then
      .error ("Segment " ++ String.mk (natChars s) ++ "-" ++ String.mk (natChars e)
        ++ " exceeds total pages (" ++ String.mk (natChars total_pages) ++ ")")
    else
      let acc' := acc + (e - s + 1)
      if acc' > preflight_max_total_extracted_pages then
        .error "Too many total pages requested across splits. Maximum allowed is 100000."
      else segCheckLoop total_pages rest acc'

/-- All segments of a parse result, in declaration order. -/
def allSegments (groups : List SplitGroup) : List (Nat × Nat) :=
  groups.flatMap (·.segments)

/-- `preflight_split_job` (tasks.py lines 272–369), returning the final
state it writes before returning. `parse_split_groups` runs (for the
analytics record, line 314) before the page-count check, so a parse failure
outruns the later checks; the second call at line 324 returns the same
value. -/
def preflight_split_job (env : PreflightEnv) : PreflightState :=
  let st0 : PreflightState := ⟨.RUNNING, 0, none, none, none, none, none⟩
  if ¬env.inputFound then preflightFail st0 "Input PDF not found for preflight"
  else
    let st1 := { st0 with progress := 10, file_size_bytes := some env.sizeBytes }
    if env.sizeBytes > preflight_max_bytes then
      preflightFail st1 "PDF file is too large. Maximum allowed size is 1GB."
    else
      match parse_split_groups env.pageRangesText with
      | .error e => preflightFail st1 e
      | .ok groups =>
        let st2 := { st1 with progress := 30, page_count := some env.totalPages }
        if env.totalPages > preflight_max_pages then
          preflightFail st2 ("PDF has too many pages ("
            ++ String.mk (natChars env.totalPages) ++ "). Maximum allowed is 20000.")
        else
          let st3 := { st2 with progress := 60, outputs_requested := some groups.length }
          if groups.length > preflight_max_outputs then
            preflightFail st3 ("Too many split outputs requested ("
              ++ String.mk (natChars groups.length) ++ "). Maximum allowed is 2000.")
          else
            match segCheckLoop env.totalPages (allSegments groups) 0 with
            | .error e => preflightFail st3 e
            | .ok total_extracted =>
              { st3 with
                  progress := 100
                  status := .SUCCESS
                  total_extracted_pages := some total_extracted }

/-! ## The atomic state store (tasks.py lines 24–51)

`_write_job_state` and `_write_json_atomic` share one shape:
`tempfile.mkstemp` in the destination directory, `json.dump` of the full
payload into the temporary file, `os.replace` onto the canonical path
(atomic on POSIX), then a best-effort unlink of the leftover temp name.
A concurrent reader only ever opens the canonical path. The model runs the
writer as a step sequence over the two files and lets a reader observe the
canonical content between any two steps. -/

/-- The two files a writer touches: the canonical path's content and the
temporary file's content (`none` = does not exist). -/
structure StoreState where
  canonical : Option (List Char)
  temp : Option (List Char)
deriving Repr, DecidableEq

/-- One writer step: create the temp file, append one buffered chunk of the
serialized payload to it, atomically rename it over the canonical path, or
unlink it. -/
inductive WriteStep
  | mkTemp
  | append (chunk : List Char)
  | rename
  | unlink
deriving Repr, DecidableEq

/-- Effect of one step. `os.replace` atomically makes the temp content the
canonical content; a rename without a temp file (the leftover-unlink path)
does nothing, as does unlinking a missing temp. -/
def storeStep (st : StoreState) : WriteStep → StoreState
  | .mkTemp => { st with temp := some [] }
  | .append chunk => { st with temp := st.temp.map (· ++ chunk) }
  | .rename =>
    match st.temp with
    | some content => ⟨some content, none⟩
    | none => st
  | .unlink => { st with temp := none }

/-- The step sequence of `_write_json_atomic path payload`
(`_write_job_state` is the same with `path = job_dir/'state.json'`):
mkstemp, the buffered writes of `json.dump` (chunks concatenating to the
serialized payload), `os.replace`, and the `finally` unlink. -/
def write_json_atomic_steps (chunks : List (List Char)) : List WriteStep :=
  .mkTemp :: chunks.map .append ++ [.rename, .unlink]

/-- Run a step sequence. -/
def runSteps (st : StoreState) (steps : List WriteStep) : StoreState :=
  steps.foldl storeStep st

/-! # The claims -/

theorem countP_success_add_failed (l : List ItemResult) :
    l.countP (· = ItemResult.SUCCESS) + l.countP (· = ItemResult.FAILED) = l.length := by
  induction l with
  | nil => rfl
  | cons x t ih => cases x <;> simp [List.countP_cons, ← ih] <;> omega

/-- C1, counterexample: a complete phase in which every item failed
(T = 2, D = 0, F = 2) is aggregated as PARTIAL_SUCCESS by both finalizers,
where the claim requires FAILED. -/
theorem C1_counterexample :
    (finalize_split_job (some 2) [.FAILED, .FAILED] 0).status = .PARTIAL_SUCCESS ∧
    ¬(finalize_split_job (some 2) [.FAILED, .FAILED] 0).status = .FAILED ∧
    (finalize_upload_job true [some .FAILED, some .FAILED]).1.status = .PARTIAL_SUCCESS ∧
    ¬(finalize_upload_job true [some .FAILED, some .FAILED]).1.status = .FAILED := by
  decide

/-- C1, amended: for every terminal set of Item Status Records (D successes
and F failures over the T = D + F manifest items) both finalizers compute
SUCCESS iff F = 0 and PARTIAL_SUCCESS iff F > 0; in particular a complete
phase in which every item failed is marked PARTIAL_SUCCESS — terminal
aggregation never yields FAILED. -/
theorem C1_finalizer_aggregation (records files : List ItemResult) (chordResults : Nat) :
    (let st := finalize_split_job (some records.length) records chordResults
     let F := records.countP (· = ItemResult.FAILED)
     (st.status = .SUCCESS ↔ F = 0) ∧ (st.status = .PARTIAL_SUCCESS ↔ 0 < F) ∧
       st.status ≠ .FAILED) ∧
    (let up := (finalize_upload_job true (files.map some)).1
     let F := files.countP (· = ItemResult.FAILED)
     (up.status = .SUCCESS ↔ F = 0) ∧ (up.status = .PARTIAL_SUCCESS ↔ 0 < F) ∧
       up.status ≠ .FAILED) := by
  constructor
  · by_cases h : records.countP (· = ItemResult.FAILED) = 0
    · simp [finalize_split_job, h]
    · have h0 : 0 < records.countP (· = ItemResult.FAILED) := Nat.pos_of_ne_zero h
      simp [finalize_split_job, h, h0]
  · have hmap : ∀ (p : ItemResult) (l : List ItemResult),
        (l.map some).countP (· = some p) = l.countP (· = p) := by
      intro p l
      rw [List.countP_map]
      have : ((fun x => decide (x = some p)) ∘ some) = fun x => decide (x = p) := by
        funext x
        simp
      rw [this]
    have hterm := countP_success_add_failed files
    have hrun : ¬(files.countP (· = ItemResult.SUCCESS)
        + files.countP (· = ItemResult.FAILED) < files.length) := by omega
    by_cases h : files.countP (· = ItemResult.FAILED) = 0
    · have hS : files.countP (· = ItemResult.SUCCESS) = files.length := by omega
      simp [finalize_upload_job, hmap, List.length_map, hrun, h, hS]
    · have h0 : 0 < files.countP (· = ItemResult.FAILED) := Nat.pos_of_ne_zero h
      simp [finalize_upload_job, hmap, List.length_map, hrun, h, h0]

/-- C5: the admission gate rejects a submission with HTTP 429, the structured
busy payload (both counts and both limits), and no job creation, exactly when
either RUNNING count has reached its ceiling; below both ceilings the gate
admits the request (and a valid request creates the job). The gate is a pure
decision — it never queues or blocks. -/
theorem C5_admission_gate (rt ra mt ma : Nat) (req : SubmitRequest) :
    (mt ≤ rt ∨ ma ≤ ra →
      start_preflight_split rt ra mt ma req =
        ⟨429, some ⟨false, "System is busy. Please try again in a few minutes.",
          true, rt, ra, mt, ma⟩, false⟩) ∧
    (rt < mt → ra < ma →
      (start_preflight_split rt ra mt ma req).busyPayload = none ∧
      (start_preflight_split rt ra mt ma req).httpStatus ≠ 429 ∧
      (req.hasFile = true → req.filenameIsPdf = true →
        (pyStrip req.pageRanges).isEmpty = false →
        (start_preflight_split rt ra mt ma req).jobCreated = true)) := by
  constructor
  · intro h
    have hb : rt ≥ mt ∨ ra ≥ ma := h
    simp [start_preflight_split, async_capacity_allows_new_job, hb]
  · intro h1 h2
    have hb : ¬(rt ≥ mt ∨ ra ≥ ma) := by omega
    by_cases hf : req.hasFile <;> by_cases hp : req.filenameIsPdf <;>
      by_cases hr : (pyStrip req.pageRanges).isEmpty <;>
      simp [start_preflight_split, async_capacity_allows_new_job, hb, hf, hp, hr]

theorem C5_admission_gate_witness :
    start_preflight_split 4 0 4 3 ⟨true, true, "1-2".data⟩ =
      ⟨429, some ⟨false, "System is busy. Please try again in a few minutes.",
        true, 4, 0, 4, 3⟩, false⟩ ∧
    (start_preflight_split 3 2 4 3 ⟨true, true, "1-2".data⟩).jobCreated = true :=
  ⟨(C5_admission_gate 4 0 4 3 _).1 (Or.inl (by decide)),
   ((C5_admission_gate 3 2 4 3 _).2 (by decide) (by decide)).2.2 rfl rfl (by decide)⟩

/-- C9: an upload work item whose local path is empty or whose file does not
exist gets exactly one terminal FAILED record with error
`'Local file not found'` and `attempts = 0`; the remote upload collaborator
is never invoked (0 invocations) and there is no retry (no sleeps). -/
theorem C9_missing_local_file (index : Nat) (localPathEmpty fileExists : Bool)
    (oracle : Nat → Except String (List Char × List Char))
    (h : localPathEmpty = true ∨ fileExists = false) :
    upload_split_file_job index localPathEmpty fileExists oracle =
      ⟨[⟨index, .FAILED, some "Local file not found", none, none, 0⟩], 0, []⟩ := by
  unfold upload_split_file_job
  rcases h with h | h <;> simp [h]

theorem runSteps_append_steps (st : StoreState) (l₁ l₂ : List WriteStep) :
    runSteps st (l₁ ++ l₂) = runSteps (runSteps st l₁) l₂ := by
  simp [runSteps, List.foldl_append]

theorem storeStep_append_temp {st : StoreState} {t : List Char} (ht : st.temp = some t)
    (c : List Char) : storeStep st (.append c) = ⟨st.canonical, some (t ++ c)⟩ := by
  cases st
  simp only [storeStep]
  simp_all

/-- After the `json.dump` chunk writes, the canonical path is untouched and
the temp file holds everything appended so far. -/
theorem runSteps_appends (cs : List (List Char)) :
    ∀ (st : StoreState) (t : List Char), st.temp = some t →
      runSteps st (cs.map WriteStep.append) = ⟨st.canonical, some (t ++ cs.flatten)⟩ := by
  induction cs with
  | nil =>
    intro st t ht
    cases st
    simp only [List.map_nil, runSteps, List.foldl_nil, List.flatten, List.append_nil]
    simp_all
  | cons c cs ih =>
    intro st t ht
    simp only [List.map_cons, runSteps, List.foldl_cons]
    rw [show storeStep st (.append c) = ⟨st.canonical, some (t ++ c)⟩ from
      storeStep_append_temp ht c]
    have := ih ⟨st.canonical, some (t ++ c)⟩ (t ++ c) rfl
    simp only [runSteps] at this
    rw [this]
    simp [List.flatten]

/-- Any split point inside `chunks.map append ++ [rename, unlink]` (the
writer's steps after `mkstemp`) shows either the prior canonical content or
the complete new payload. -/
theorem storeSteps_tail_invariant (cs : List (List Char)) :
    ∀ (st : StoreState) (t : List Char), st.temp = some t →
      ∀ p s, p ++ s = (cs.map WriteStep.append) ++ [.rename, .unlink] →
        (runSteps st p).canonical = st.canonical ∨
          (runSteps st p).canonical = some (t ++ cs.flatten) := by
  induction cs with
  | nil =>
    intro st t ht p s hps
    simp only [List.map_nil, List.nil_append] at hps
    rcases p with _ | ⟨a, p⟩
    · exact Or.inl rfl
    · have ha : a = WriteStep.rename ∧ p ++ s = [WriteStep.unlink] := by
        rw [List.cons_append] at hps
        exact ⟨(List.cons.injEq _ _ _ _ ▸ hps).1, (List.cons.injEq _ _ _ _ ▸ hps).2⟩
      obtain ⟨ha, hps'⟩ := ha
      subst ha
      have hren : storeStep st .rename = ⟨some t, none⟩ := by
        cases st
        simp only [storeStep]
        simp_all
      rcases p with _ | ⟨b, p⟩
      · right
        simp [runSteps, hren, List.flatten]
      · have hb : b = WriteStep.unlink ∧ p ++ s = [] := by
          rw [List.cons_append] at hps'
          exact ⟨(List.cons.injEq _ _ _ _ ▸ hps').1, (List.cons.injEq _ _ _ _ ▸ hps').2⟩
        obtain ⟨hb, hps''⟩ := hb
        subst hb
        have hp : p = [] := by
          rcases List.append_eq_nil.mp hps'' with ⟨h1, _⟩
          exact h1
        subst hp
        right
        have hr2 : runSteps st [WriteStep.rename, WriteStep.unlink]
            = storeStep (storeStep st .rename) .unlink := by
          simp [runSteps]
        rw [hr2, hren]
        simp [storeStep, List.flatten]
  | cons c cs ih =>
    intro st t ht p s hps
    simp only [List.map_cons, List.cons_append] at hps
    rcases p with _ | ⟨a, p⟩
    · exact Or.inl rfl
    · rw [List.cons_append] at hps
      have ha : a = WriteStep.append c := (List.cons.injEq _ _ _ _ ▸ hps).1
      have hps' : p ++ s = (cs.map WriteStep.append) ++ [.rename, .unlink] :=
        (List.cons.injEq _ _ _ _ ▸ hps).2
      subst ha
      have hstep := storeStep_append_temp ht c
      have hrun : runSteps st (WriteStep.append c :: p)
          = runSteps ⟨st.canonical, some (t ++ c)⟩ p := by
        simp [runSteps, List.foldl_cons, hstep]
      rw [hrun]
      rcases ih ⟨st.canonical, some (t ++ c)⟩ (t ++ c) rfl p s hps' with h | h
      · exact Or.inl h
      · right
        rw [h]
        simp [List.flatten, List.append_assoc]

/-- C8: every state-store write (`_write_job_state` / `_write_json_atomic`)
dumps the full payload into a same-directory temporary file and atomically
renames it onto the canonical path. A reader of the canonical path at any
point during the write observes either the prior content or the complete new
payload — never a truncation — and the completed write leaves exactly the
new payload (a full snapshot overwrite, independent of the prior content). -/
theorem C8_atomic_state_write (payload : List Char) (chunks : List (List Char))
    (hj : chunks.flatten = payload) (init : StoreState) (pre suf : List WriteStep)
    (hsplit : write_json_atomic_steps chunks = pre ++ suf) :
    ((runSteps init pre).canonical = init.canonical ∨
      (runSteps init pre).canonical = some payload) ∧
    runSteps init (write_json_atomic_steps chunks) =
      ⟨some payload, none⟩ := by
  constructor
  · rcases pre with _ | ⟨a, pre⟩
    · exact Or.inl rfl
    · unfold write_json_atomic_steps at hsplit
      rw [List.cons_append] at hsplit
      have ha : WriteStep.mkTemp = a := (List.cons.injEq _ _ _ _ ▸ hsplit).1
      have hps : pre ++ suf = (chunks.map WriteStep.append) ++ [.rename, .unlink] :=
        ((List.cons.injEq _ _ _ _ ▸ hsplit).2).symm
      subst ha
      have hrun : runSteps init (WriteStep.mkTemp :: pre)
          = runSteps ⟨init.canonical, some []⟩ pre := by
        cases init
        simp [runSteps, List.foldl_cons, storeStep]
      rw [hrun]
      rcases storeSteps_tail_invariant chunks ⟨init.canonical, some []⟩ [] rfl
          pre suf hps with h | h
      · exact Or.inl h
      · right
        rw [h, List.nil_append, hj]
  · have h1 : runSteps init [WriteStep.mkTemp] = ⟨init.canonical, some []⟩ := by
      cases init
      simp [runSteps, storeStep]
    have hsteps : write_json_atomic_steps chunks
        = [WriteStep.mkTemp] ++ chunks.map WriteStep.append
          ++ [WriteStep.rename, WriteStep.unlink] := rfl
    rw [hsteps, runSteps_append_steps, runSteps_append_steps, h1,
      runSteps_appends chunks ⟨init.canonical, some []⟩ [] rfl]
    simp [runSteps, storeStep, hj]

theorem C8_atomic_state_write_witness :
    ((runSteps ⟨some "old".data, none⟩ [.mkTemp, .append "ne".data]).canonical
        = some "old".data ∨
      (runSteps ⟨some "old".data, none⟩ [.mkTemp, .append "ne".data]).canonical
        = some "new".data) ∧
    runSteps ⟨some "old".data, none⟩ (write_json_atomic_steps ["ne".data, "w".data]) =
      ⟨some "new".data, none⟩ :=
  C8_atomic_state_write "new".data ["ne".data, "w".data] (by decide)
    ⟨some "old".data, none⟩ [.mkTemp, .append "ne".data]
    [.append "w".data, .rename, .unlink] (by decide)

theorem C9_missing_local_file_witness :
    upload_split_file_job 1 false false (fun _ => .error "unused") =
      ⟨[⟨1, .FAILED, some "Local file not found", none, none, 0⟩], 0, []⟩ :=
  C9_missing_local_file 1 false false _ (Or.inr rfl)

/-- C6: for an upload work item whose local file exists, the worker invokes
the upload collaborator at most 3 times and writes exactly one terminal
record; a first success at attempt k writes a SUCCESS record carrying the
output reference (remote file id and web link) and attempts = k, after the
exponential backoff sleeps 2,4 seconds between the earlier failed attempts;
three failed attempts write one terminal FAILED record carrying the last
error and attempts = 3, and the task still returns its payload — no
job-level error is raised. -/
theorem C6_upload_worker_retry (index : Nat)
    (oracle : Nat → Except String (List Char × List Char))
    (fid link : List Char) (e1 e2 e3 : String) (k : Nat) :
    (upload_split_file_job index false true oracle).invocations ≤ 3 ∧
    (upload_split_file_job index false true oracle).writes.length = 1 ∧
    (1 ≤ k → k ≤ 3 → (∀ j, 1 ≤ j → j < k → ∃ e, oracle j = .error e) →
      oracle k = .ok (fid, link) →
      upload_split_file_job index false true oracle =
        ⟨[⟨index, .SUCCESS, none, some fid, some link, k⟩], k, [2, 4].take (k - 1)⟩) ∧
    (oracle 1 = .error e1 → oracle 2 = .error e2 → oracle 3 = .error e3 →
      upload_split_file_job index false true oracle =
        ⟨[⟨index, .FAILED, some e3, none, none, 3⟩], 3, [2, 4]⟩) := by
  refine ⟨?_, ?_, ?_, ?_⟩
  · rcases h1 : oracle 1 with e | p
    · rcases h2 : oracle 2 with e' | p'
      · rcases h3 : oracle 3 with e'' | p''
        · simp [upload_split_file_job, uploadAttemptLoop, h1, h2, h3]
        · simp [upload_split_file_job, uploadAttemptLoop, h1, h2, h3]
      · simp [upload_split_file_job, uploadAttemptLoop, h1, h2]
    · simp [upload_split_file_job, uploadAttemptLoop, h1]
  · rcases h1 : oracle 1 with e | p
    · rcases h2 : oracle 2 with e' | p'
      · rcases h3 : oracle 3 with e'' | p''
        · simp [upload_split_file_job, uploadAttemptLoop, h1, h2, h3]
        · simp [upload_split_file_job, uploadAttemptLoop, h1, h2, h3]
      · simp [upload_split_file_job, uploadAttemptLoop, h1, h2]
    · simp [upload_split_file_job, uploadAttemptLoop, h1]
  · intro hk1 hk3 hfail hok
    interval_cases k
    · simp [upload_split_file_job, uploadAttemptLoop, hok]
    · obtain ⟨e, he⟩ := hfail 1 (by omega) (by omega)
      simp [upload_split_file_job, uploadAttemptLoop, he, hok]
    · obtain ⟨e, he⟩ := hfail 1 (by omega) (by omega)
      obtain ⟨e', he'⟩ := hfail 2 (by omega) (by omega)
      simp [upload_split_file_job, uploadAttemptLoop, he, he', hok]
  · intro h1 h2 h3
    simp [upload_split_file_job, uploadAttemptLoop, h1, h2, h3]

theorem C6_upload_worker_retry_witness :
    upload_split_file_job 7 false true
      (fun j => if j = 2 then .ok ("id".data, "ln".data) else .error "boom") =
      ⟨[⟨7, .SUCCESS, none, some "id".data, some "ln".data, 2⟩], 2, [2]⟩ :=
  (C6_upload_worker_retry 7
      (fun j => if j = 2 then .ok ("id".data, "ln".data) else .error "boom")
      "id".data "ln".data "x" "x" "x" 2).2.2.1
    (by decide) (by decide)
    (fun j hj1 hj2 => ⟨"boom", by interval_cases j; rfl⟩) rfl

theorem filter_not_length {α : Type} (p : α → Prop) [DecidablePred p] (l : List α) :
    (l.filter (fun a => !decide (p a))).length
      = l.length - l.countP (fun a => decide (p a)) := by
  induction l with
  | nil => rfl
  | cons x t ih =>
    have hc : t.countP (fun a => decide (p a)) ≤ t.length := List.countP_le_length _
    by_cases hx : p x <;> simp [List.filter_cons, List.countP_cons, hx, ih] <;> omega

theorem stableInsert_length {α : Type} (le : α → α → Bool) (x : α) :
    ∀ l, (stableInsert le x l).length = l.length + 1
  | [] => rfl
  | y :: ys => by
    simp only [stableInsert]
    split
    · simp [stableInsert_length le x ys]
    · simp

theorem stableSort_length {α : Type} (le : α → α → Bool) :
    ∀ l, (stableSort le l).length = l.length
  | [] => rfl
  | x :: xs => by
    simp [stableSort, stableInsert_length, stableSort_length le xs]

/-- When its gates pass (folder present, split PDFs found, Drive configured
and resolved), `upload_split_job` writes a RUNNING state with
`total = N` and enqueues exactly the resume-filtered items. -/
theorem upload_split_job_runs (env : UploadEnv)
    (h1 : env.splitDirExists = true)
    (h2 : (env.splitDirListing.filter isSplitPdfName) ≠ [])
    (h3 : env.rootFolderConfigured = true)
    (f : List Char) (h4 : env.resolvedFolder = some f) :
    upload_split_job env =
      { state := ⟨.RUNNING, 0, none,
          some ⟨(env.splitDirListing.filter isSplitPdfName).length, 0, 0⟩⟩
        scheduled := uploadScheduled env.prior
          (env.splitDirListing.filter isSplitPdfName).length
        finalizeScheduled := true } := by
  have hlen : (stableSort (fun a b => charListLe (lowerChars a) (lowerChars b))
      (env.splitDirListing.filter isSplitPdfName)).length
      = (env.splitDirListing.filter isSplitPdfName).length := stableSort_length _ _
  have hne : (stableSort (fun a b => charListLe (lowerChars a) (lowerChars b))
      (env.splitDirListing.filter isSplitPdfName)).isEmpty = false := by
    rw [List.isEmpty_eq_false]
    intro hcon
    apply h2
    have := hlen
    rw [hcon] at this
    exact List.eq_nil_of_length_eq_zero this.symm
  simp [upload_split_job, h1, h3, h4, hne, hlen]

/-- The C2 counterexample environment: the SPLIT phase's own state entry
reports FAILED, yet the split folder exists and holds one split PDF, Drive
is configured, and the patient folder resolves. -/
def c2UploadEnv : UploadEnv :=
  { splitDirExists := true
    splitDirListing := ["1-3.pdf".data]
    splitState := some ⟨.FAILED, 100, some "boom", none⟩
    rootFolderConfigured := true
    resolvedFolder := some "folder123".data
    prior := fun _ => .absent }

/-- C2, counterexample: the job's SPLIT state entry reports FAILED, yet the
upload task is not rejected — it writes a RUNNING state, enqueues item 1,
and schedules the finalizer. -/
theorem C2_counterexample :
    c2UploadEnv.splitState = some ⟨.FAILED, 100, some "boom", none⟩ ∧
    (upload_split_job c2UploadEnv).state.status = .RUNNING ∧
    (upload_split_job c2UploadEnv).scheduled = [1] ∧
    (upload_split_job c2UploadEnv).finalizeScheduled = true := by
  refine ⟨rfl, ?_, ?_, ?_⟩ <;> decide

/-- C2, amended: starting SPLIT without the PREFLIGHT State Store entry
reporting SUCCESS is rejected (FAILED state, no chunk task, no finalizer),
as claimed; starting UPLOAD, however, is not gated on the SPLIT state
entry — the upload task's outcome is independent of that entry, and it
proceeds whenever the split folder exists with at least one split PDF and
Drive is configured and resolvable. -/
theorem C2_phase_gating (env : SplitEnv) (uenv : UploadEnv) (s : Option PhaseState) :
    ((∀ pf, env.preflightState = some pf → pf.status ≠ .SUCCESS) →
      (split_pdf_job env).state.status = .FAILED ∧
      (split_pdf_job env).chunks = [] ∧
      (split_pdf_job env).finalizeScheduled = false) ∧
    (upload_split_job { uenv with splitState := s } = upload_split_job uenv) ∧
    (uenv.splitDirExists = true →
      (uenv.splitDirListing.filter isSplitPdfName) ≠ [] →
      uenv.rootFolderConfigured = true →
      ∀ f, uenv.resolvedFolder = some f →
      (upload_split_job uenv).state.status = .RUNNING ∧
      (upload_split_job uenv).finalizeScheduled = true) := by
  refine ⟨?_, ?_, ?_⟩
  · intro h
    rcases hpf : env.preflightState with _ | pf
    · simp [split_pdf_job, hpf, splitJobFailure]
    · have hne := h pf hpf
      simp [split_pdf_job, hpf, hne, splitJobFailure]
  · cases uenv
    simp [upload_split_job]
  · intro h1 h2 h3 f h4
    rw [upload_split_job_runs uenv h1 h2 h3 f h4]
    exact ⟨rfl, rfl⟩

theorem C2_phase_gating_witness :
    (split_pdf_job ⟨some ⟨.FAILED, 100, some "boom", none⟩, true,
        some "1-3".data, 10, 10⟩).state.status = .FAILED ∧
    (upload_split_job c2UploadEnv).state.status = .RUNNING :=
  ⟨((C2_phase_gating ⟨some ⟨.FAILED, 100, some "boom", none⟩, true,
        some "1-3".data, 10, 10⟩ c2UploadEnv none).1
      (fun pf hpf => by injection hpf with h; rw [← h]; decide)).1,
   ((C2_phase_gating ⟨some ⟨.FAILED, 100, some "boom", none⟩, true,
        some "1-3".data, 10, 10⟩ c2UploadEnv none).2.2 rfl (by decide) rfl
      "folder123".data rfl).1⟩

/-- C3: re-invoking the upload phase on a job whose N split files include
K < N with a SUCCESS status record enqueues worker executions for exactly
the N−K items without one: an index is scheduled iff it lies in 1..N and its
prior record is not SUCCESS (missing, unreadable, and FAILED records are all
redone), and the written state counts all N items. -/
theorem C3_resumable_upload (env : UploadEnv)
    (h1 : env.splitDirExists = true)
    (h2 : (env.splitDirListing.filter isSplitPdfName) ≠ [])
    (h3 : env.rootFolderConfigured = true)
    (f : List Char) (h4 : env.resolvedFolder = some f)
    (hK : ((List.range (env.splitDirListing.filter isSplitPdfName).length).map (· + 1)).countP
        (fun i => env.prior i = .record .SUCCESS)
      < (env.splitDirListing.filter isSplitPdfName).length) :
    (upload_split_job env).scheduled.length
      = (env.splitDirListing.filter isSplitPdfName).length
        - ((List.range (env.splitDirListing.filter isSplitPdfName).length).map (· + 1)).countP
            (fun i => env.prior i = .record .SUCCESS) ∧
    (∀ i, i ∈ (upload_split_job env).scheduled ↔
      (1 ≤ i ∧ i ≤ (env.splitDirListing.filter isSplitPdfName).length ∧
        env.prior i ≠ .record .SUCCESS)) ∧
    (upload_split_job env).state.counts
      = some ⟨(env.splitDirListing.filter isSplitPdfName).length, 0, 0⟩ := by
  rw [upload_split_job_runs env h1 h2 h3 f h4]
  refine ⟨?_, ?_, rfl⟩
  · simp only [uploadScheduled, ne_eq, decide_not]
    rw [filter_not_length (fun i => env.prior i = .record .SUCCESS)]
    simp
  · intro i
    simp only [uploadScheduled, List.mem_filter, List.mem_map, List.mem_range]
    constructor
    · rintro ⟨⟨j, hj, rfl⟩, hp⟩
      refine ⟨by omega, by omega, by simpa using hp⟩
    · rintro ⟨hi1, hi2, hp⟩
      exact ⟨⟨i - 1, by omega, by omega⟩, by simpa using hp⟩

theorem C3_resumable_upload_witness :
    (upload_split_job
      { splitDirExists := true
        splitDirListing := ["a.pdf".data, "b.pdf".data, "c.pdf".data]
        splitState := none
        rootFolderConfigured := true
        resolvedFolder := some "fid".data
        prior := fun i => if i = 2 then .record .SUCCESS else .absent }).scheduled.length
      = 2 :=
  (C3_resumable_upload _ rfl (by decide) rfl "fid".data rfl (by decide)).1.trans (by decide)

theorem fanoutChunks_nil {α : Type} (c : Nat) : fanoutChunks ([] : List α) c = [] := by
  simp [fanoutChunks, pyRange, pyRangeAux]

theorem pyRange_shift {step : Nat} (hs : 0 < step) (k : Nat) :
    ∀ (n stop start : Nat), stop - start ≤ n →
      pyRange (start + k) (stop + k) step = (pyRange start stop step).map (· + k) := by
  intro n
  induction n with
  | zero =>
    intro stop start h
    rw [pyRange_unfold hs (start + k) (stop + k), pyRange_unfold hs start stop]
    have h1 : ¬start < stop := by omega
    have h2 : ¬start + k < stop + k := by omega
    simp [h1, h2]
  | succ n ih =>
    intro stop start h
    rw [pyRange_unfold hs (start + k) (stop + k), pyRange_unfold hs start stop]
    by_cases hlt : start < stop
    · have hlt2 : start + k < stop + k := by omega
      have htail := ih stop (start + step) (by omega)
      simp only [hlt, hlt2, if_true, List.map_cons]
      congr 1
      rw [show start + k + step = (start + step) + k by omega]
      exact htail
    · have hlt2 : ¬start + k < stop + k := by omega
      simp [hlt, hlt2]

/-- Unrolling the chunk loop: a nonempty manifest's first chunk is its first
`c` items, and the rest chunks the remainder. -/
theorem fanoutChunks_cons {α : Type} {c : Nat} (hc : 0 < c) (outputs : List α)
    (h : outputs ≠ []) :
    fanoutChunks outputs c = outputs.take c :: fanoutChunks (outputs.drop c) c := by
  unfold fanoutChunks
  have hlen : 0 < outputs.length := List.length_pos.mpr h
  rw [pyRange_unfold hc]
  simp only [hlen, if_true, List.map_cons, List.drop_zero, Nat.zero_add, List.length_drop]
  congr 1
  rcases Nat.lt_or_ge outputs.length c with hcl | hcl
  · have h1 : pyRange c outputs.length c = [] := by
      rw [pyRange_unfold hc]
      simp [show ¬c < outputs.length by omega]
    have h2 : outputs.length - c = 0 := by omega
    have h3 : pyRange 0 0 c = [] := by
      rw [pyRange_unfold hc]
      simp
    rw [h1, h2, h3]
    simp
  · have h3 : pyRange c outputs.length c
        = (pyRange 0 (outputs.length - c) c).map (· + c) := by
      have hsh := pyRange_shift hc c (outputs.length - c) (outputs.length - c) 0
        (by omega)
      rw [Nat.zero_add] at hsh
      rw [show outputs.length - c + c = outputs.length by omega] at hsh
      exact hsh
    rw [h3, List.map_map]
    apply List.map_congr_left
    intro s hs
    simp only [Function.comp_apply, List.drop_drop]
    rw [show s + c = c + s by omega]

theorem fanoutChunks_ne_nil {α : Type} {c : Nat} (hc : 0 < c) (outputs : List α)
    (h : outputs ≠ []) : fanoutChunks outputs c ≠ [] := by
  rw [fanoutChunks_cons hc outputs h]
  simp

theorem fanoutChunks_flatten {α : Type} {c : Nat} (hc : 0 < c) (outputs : List α) :
    (fanoutChunks outputs c).flatten = outputs := by
  have key : ∀ (n : Nat) (l : List α), l.length ≤ n → (fanoutChunks l c).flatten = l := by
    intro n
    induction n with
    | zero =>
      intro l h
      have : l = [] := List.eq_nil_of_length_eq_zero (by omega)
      subst this
      simp [fanoutChunks_nil]
    | succ n ih =>
      intro l h
      rcases eq_or_ne l [] with rfl | hne
      · simp [fanoutChunks_nil]
      · have hpos : 0 < l.length := List.length_pos.mpr hne
        rw [fanoutChunks_cons hc l hne, List.flatten_cons,
          ih (l.drop c) (by simp [List.length_drop]; omega)]
        exact List.take_append_drop c l
  exact key outputs.length outputs (le_refl _)

theorem fanoutChunks_length {α : Type} {c : Nat} (hc : 0 < c) (outputs : List α) :
    (fanoutChunks outputs c).length = (outputs.length + c - 1) / c := by
  have key : ∀ (n : Nat) (l : List α), l.length ≤ n →
      (fanoutChunks l c).length = (l.length + c - 1) / c := by
    intro n
    induction n with
    | zero =>
      intro l h
      have : l = [] := List.eq_nil_of_length_eq_zero (by omega)
      subst this
      rw [fanoutChunks_nil]
      simp only [List.length_nil, Nat.zero_add]
      exact (Nat.div_eq_of_lt (show c - 1 < c by omega)).symm
    | succ n ih =>
      intro l h
      rcases eq_or_ne l [] with rfl | hne
      · rw [fanoutChunks_nil]
        simp only [List.length_nil, Nat.zero_add]
        exact (Nat.div_eq_of_lt (show c - 1 < c by omega)).symm
      · have hpos : 0 < l.length := List.length_pos.mpr hne
        rw [fanoutChunks_cons hc l hne, List.length_cons,
          ih (l.drop c) (by simp [List.length_drop]; omega), List.length_drop]
        rcases Nat.lt_or_ge (l.length) c with hlc | hlc
        · have e1 : l.length - c = 0 := by omega
          rw [e1, Nat.zero_add, Nat.div_eq_of_lt (show c - 1 < c by omega),
            show l.length + c - 1 = (l.length - 1) + c by omega,
            Nat.add_div_right _ hc,
            Nat.div_eq_of_lt (show l.length - 1 < c by omega)]
        · rw [show l.length - c + c - 1 = l.length - 1 by omega,
            show l.length + c - 1 = (l.length - 1) + c by omega,
            Nat.add_div_right _ hc]
  exact key outputs.length outputs (le_refl _)

theorem fanoutChunks_sizes {α : Type} {c : Nat} (hc : 0 < c) (outputs : List α) :
    ∀ ch ∈ fanoutChunks outputs c, ch ≠ [] ∧ ch.length ≤ c := by
  have key : ∀ (n : Nat) (l : List α), l.length ≤ n →
      ∀ ch ∈ fanoutChunks l c, ch ≠ [] ∧ ch.length ≤ c := by
    intro n
    induction n with
    | zero =>
      intro l h
      have : l = [] := List.eq_nil_of_length_eq_zero (by omega)
      subst this
      simp [fanoutChunks_nil]
    | succ n ih =>
      intro l h
      rcases eq_or_ne l [] with rfl | hne
      · simp [fanoutChunks_nil]
      · have hpos : 0 < l.length := List.length_pos.mpr hne
        rw [fanoutChunks_cons hc l hne]
        intro ch hch
        rcases List.mem_cons.mp hch with rfl | hch
        · constructor
          · simp [List.take_eq_nil_iff, hne]
            omega
          · simp [List.length_take]
        · exact ih (l.drop c) (by simp [List.length_drop]; omega) ch hch
  exact key outputs.length outputs (le_refl _)

theorem fanoutChunks_dropLast {α : Type} {c : Nat} (hc : 0 < c) (outputs : List α) :
    ∀ ch ∈ (fanoutChunks outputs c).dropLast, ch.length = c := by
  have key : ∀ (n : Nat) (l : List α), l.length ≤ n →
      ∀ ch ∈ (fanoutChunks l c).dropLast, ch.length = c := by
    intro n
    induction n with
    | zero =>
      intro l h
      have : l = [] := List.eq_nil_of_length_eq_zero (by omega)
      subst this
      simp [fanoutChunks_nil]
    | succ n ih =>
      intro l h
      rcases eq_or_ne l [] with rfl | hne
      · simp [fanoutChunks_nil]
      · have hpos : 0 < l.length := List.length_pos.mpr hne
        rw [fanoutChunks_cons hc l hne]
        rcases eq_or_ne (l.drop c) [] with hde | hdn
        · rw [hde, fanoutChunks_nil]
          simp
        · have hcl : c < l.length := by
            by_contra hcon
            exact hdn (by simp [List.drop_eq_nil_iff]; omega)
          have htail := fanoutChunks_ne_nil hc (l.drop c) hdn
          rcases hf : fanoutChunks (l.drop c) c with _ | ⟨t0, ts⟩
          · exact absurd hf htail
          · rw [List.dropLast_cons₂]
            intro ch hch
            rcases List.mem_cons.mp hch with rfl | hch
            · simp [List.length_take]
              omega
            · have := ih (l.drop c) (by simp [List.length_drop]; omega)
              rw [hf] at this
              exact this ch hch
  exact key outputs.length outputs (le_refl _)

theorem flatten_count_one {β : Type} [DecidableEq β] (ll : List (List β)) (b : β)
    (h : ll.flatten.count b = 1) : ll.countP (fun l => decide (b ∈ l)) = 1 := by
  induction ll with
  | nil => simp at h
  | cons hd tl ih =>
    rw [List.flatten_cons, List.count_append] at h
    by_cases hb : b ∈ hd
    · have h1 : 1 ≤ hd.count b := List.count_pos_iff.mpr hb
      have h2 : tl.flatten.count b = 0 := by omega
      have h3 : ∀ l ∈ tl, ¬(b ∈ l) := by
        intro l hl hbl
        have hmem : b ∈ tl.flatten := List.mem_flatten.mpr ⟨l, hl, hbl⟩
        have := List.count_pos_iff.mpr hmem
        omega
      rw [List.countP_cons]
      have h4 : tl.countP (fun l => decide (b ∈ l)) = 0 := by
        rw [List.countP_eq_zero]
        intro l hl
        simpa using h3 l hl
      simp [hb, h4]
    · have h1 : hd.count b = 0 := List.count_eq_zero.mpr hb
      rw [List.countP_cons]
      simpa [hb] using ih (by omega)

theorem flatten_map_map {α β : Type} (f : α → β) (ll : List (List α)) :
    (ll.map (List.map f)).flatten = ll.flatten.map f := by
  induction ll with
  | nil => rfl
  | cons hd tl ih =>
    simp only [List.map_cons, List.flatten_cons, List.map_append]
    rw [ih]

theorem enumFrom_length {α : Type} : ∀ (k : Nat) (l : List α),
    (List.enumFrom k l).length = l.length
  | _, [] => rfl
  | k, x :: xs => by
    simp only [List.enumFrom, List.length_cons]
    rw [enumFrom_length (k + 1) xs]

theorem splitOutputs_length (groups : List SplitGroup) :
    (splitOutputs groups).length = groups.length := by
  rw [splitOutputs, List.length_map, enumFrom_length]

theorem splitOutputs_indices (groups : List SplitGroup) :
    (splitOutputs groups).map SplitOutputItem.index
      = List.range' 1 groups.length := by
  rw [splitOutputs, List.map_map,
    show (SplitOutputItem.index ∘ fun p : Nat × SplitGroup =>
      SplitOutputItem.mk p.1 p.2.label (safe_output_filename p.2.label) p.2.segments)
      = Prod.fst from rfl,
    List.enumFrom_map_fst]

theorem count_range'_one (T i : Nat) (h1 : 1 ≤ i) (h2 : i ≤ T) :
    (List.range' 1 T).count i = 1 := by
  have hmem : i ∈ List.range' 1 T := List.mem_range'_1.mpr ⟨h1, by omega⟩
  exact List.count_eq_one_of_mem (List.nodup_range' 1 T) hmem

/-- C4: on a successful split run with T outputs and a configured chunk size
C ≥ 1, exactly ⌈T/C⌉ chunk tasks are scheduled, their concatenation is the
manifest outputs in order, every chunk but the last has size C (all are
nonempty with size ≤ C), every item index in 1..T appears in exactly one
chunk, and the finalize callback is registered. -/
theorem C4_chunk_scheduling (env : SplitEnv) (pf : PhaseState) (ranges : List Char)
    (groups : List SplitGroup)
    (h1 : env.preflightState = some pf) (h2 : pf.status = .SUCCESS)
    (h3 : env.inputPdfFound = true) (h4 : env.requestRanges = some ranges)
    (h6 : (pyStrip ranges).isEmpty = false)
    (h5 : parse_split_groups (pyStrip ranges) = .ok groups)
    (hcs : 1 ≤ env.chunkSizeSetting) :
    (split_pdf_job env).chunks.flatten = splitOutputs groups ∧
    (split_pdf_job env).chunks.length
      = (groups.length + env.chunkSizeSetting.toNat - 1) / env.chunkSizeSetting.toNat ∧
    (∀ ch ∈ (split_pdf_job env).chunks.dropLast,
      ch.length = env.chunkSizeSetting.toNat) ∧
    (∀ ch ∈ (split_pdf_job env).chunks,
      ch ≠ [] ∧ ch.length ≤ env.chunkSizeSetting.toNat) ∧
    (∀ i, 1 ≤ i → i ≤ groups.length →
      (split_pdf_job env).chunks.countP
        (fun ch => decide (i ∈ ch.map SplitOutputItem.index)) = 1) ∧
    (split_pdf_job env).finalizeScheduled = true := by
  have hC : effectiveChunkSize env.chunkSizeSetting = env.chunkSizeSetting.toNat := by
    unfold effectiveChunkSize
    rw [if_neg (by omega), if_neg (by omega)]
  have hCpos : 0 < env.chunkSizeSetting.toNat := by omega
  have hchunks : (split_pdf_job env).chunks
      = fanoutChunks (splitOutputs groups) env.chunkSizeSetting.toNat := by
    simp [split_pdf_job, h1, h2, h3, h4, h5, h6, hC]
  have hfin : (split_pdf_job env).finalizeScheduled = true := by
    simp [split_pdf_job, h1, h2, h3, h4, h5, h6]
  refine ⟨?_, ?_, ?_, ?_, ?_, hfin⟩
  · rw [hchunks]
    exact fanoutChunks_flatten hCpos _
  · rw [hchunks, fanoutChunks_length hCpos, splitOutputs_length]
  · rw [hchunks]
    exact fanoutChunks_dropLast hCpos _
  · rw [hchunks]
    exact fanoutChunks_sizes hCpos _
  · intro i hi1 hi2
    rw [hchunks]
    have hcount : ((fanoutChunks (splitOutputs groups)
        env.chunkSizeSetting.toNat).map (List.map SplitOutputItem.index)).flatten.count i
        = 1 := by
      rw [flatten_map_map, fanoutChunks_flatten hCpos, splitOutputs_indices]
      exact count_range'_one groups.length i hi1 hi2
    have hone := flatten_count_one _ i hcount
    rw [List.countP_map] at hone
    have hfun : ((fun l => decide (i ∈ l)) ∘ List.map SplitOutputItem.index)
        = (fun ch : List SplitOutputItem =>
            decide (i ∈ ch.map SplitOutputItem.index)) := rfl
    rw [hfun] at hone
    exact hone

theorem C4_chunk_scheduling_witness :
    (split_pdf_job ⟨some ⟨.SUCCESS, 100, none, none⟩, true,
        some "1; 2; 3".data, 5, 2⟩).chunks.length = 2 :=
  ((C4_chunk_scheduling ⟨some ⟨.SUCCESS, 100, none, none⟩, true,
      some "1; 2; 3".data, 5, 2⟩ ⟨.SUCCESS, 100, none, none⟩ "1; 2; 3".data
      [⟨"1".data, [(1, 1)]⟩, ⟨"2".data, [(2, 2)]⟩, ⟨"3".data, [(3, 3)]⟩]
      rfl rfl rfl rfl (by decide) rfl (by decide)).2.1).trans (by decide)

/-! ## Shape of `parse_split_groups` output

Every group a successful parse returns carries segments with
`1 ≤ start ≤ end`, and its label is exactly the canonical rendering of its
segments (`', '.join` of `f"{s}-{e}"`/`f"{s}"`). -/

theorem parsePart_ok {p : List Char} {se : Nat × Nat} {txt : List Char}
    (h : parsePart p = .ok (se, txt)) :
    1 ≤ se.1 ∧ se.1 ≤ se.2 ∧ txt = segmentChars se := by
  unfold parsePart at h
  dsimp only at h
  split at h
  · exact absurd h (by simp)
  case _ s e =>
    split at h
    · exact absurd h (by simp)
    case _ hcond =>
      simp only [Bool.or_eq_true, decide_eq_true_eq, not_or] at hcond
      injection h with h
      injection h with h1 h2
      subst h1
      refine ⟨by omega, by omega, h2.symm⟩

theorem parseParts_ok : ∀ {ps rs},
    parseParts ps = .ok rs →
    rs.length = ps.length ∧
      ∀ r ∈ rs, 1 ≤ r.1.1 ∧ r.1.1 ≤ r.1.2 ∧ r.2 = segmentChars r.1 := by
  intro ps
  induction ps with
  | nil =>
    intro rs h
    injection h with h
    subst h
    simp
  | cons p ps ih =>
    intro rs h
    unfold parseParts at h
    split at h
    · exact absurd h (by simp)
    case _ r hr =>
      rcases hps : parseParts ps with e | rs'
      · rw [hps] at h
        exact absurd h (by simp [Except.map])
      · rw [hps] at h
        simp only [Except.map] at h
        injection h with h
        subst h
        obtain ⟨hlen, hall⟩ := ih hps
        refine ⟨by simp [hlen], ?_⟩
        intro x hx
        rcases List.mem_cons.mp hx with rfl | hx
        · rcases x with ⟨se, txt⟩
          exact parsePart_ok hr
        · exact hall x hx

theorem parseGroup_ok {g : List Char} {grp : SplitGroup} (h : parseGroup g = .ok grp) :
    ∃ rs, parseParts (((pySplit ',' g).map pyStrip).filter (fun p => !p.isEmpty)) = .ok rs ∧
      rs ≠ [] ∧ grp.label = joinComma (rs.map Prod.snd) ∧
      grp.segments = rs.map Prod.fst := by
  unfold parseGroup at h
  dsimp only at h
  split at h
  · exact absurd h (by simp)
  case _ hne =>
    rcases hps : parseParts (((pySplit ',' g).map pyStrip).filter (fun p => !p.isEmpty))
      with e | rs
    · rw [hps] at h
      exact absurd h (by simp [Except.map])
    · rw [hps] at h
      simp only [Except.map] at h
      injection h with h
      subst h
      refine ⟨rs, rfl, ?_, rfl, rfl⟩
      obtain ⟨hlen, _⟩ := parseParts_ok hps
      intro hcon
      rw [hcon] at hlen
      simp only [List.length_nil] at hlen
      have : (List.filter (fun p => !p.isEmpty)
          (List.map pyStrip (pySplit ',' g))).isEmpty = true := by
        rw [List.isEmpty_iff]
        exact List.eq_nil_of_length_eq_zero hlen.symm
      exact hne this

theorem parseGroups_ok : ∀ {gs grps},
    parseGroups gs = .ok grps → ∀ grp ∈ grps, ∃ g ∈ gs, parseGroup g = .ok grp := by
  intro gs
  induction gs with
  | nil =>
    intro grps h
    injection h with h
    subst h
    simp
  | cons g gs ih =>
    intro grps h
    unfold parseGroups at h
    split at h
    · exact absurd h (by simp)
    case _ grp0 hg =>
      rcases hgs : parseGroups gs with e | grps'
      · rw [hgs] at h
        exact absurd h (by simp [Except.map])
      · rw [hgs] at h
        simp only [Except.map] at h
        injection h with h
        subst h
        intro grp hgrp
        rcases List.mem_cons.mp hgrp with rfl | hgrp
        · exact ⟨g, List.mem_cons_self g gs, hg⟩
        · obtain ⟨g', hg', hok⟩ := ih hgs grp hgrp
          exact ⟨g', List.mem_cons_of_mem _ hg', hok⟩

/-- Every group a successful `parse_split_groups` returns came out of
`parseGroup` on some raw group string. -/
theorem parse_split_groups_ok {s : List Char} {groups : List SplitGroup}
    (h : parse_split_groups s = .ok groups) :
    ∀ grp ∈ groups, ∃ g, parseGroup g = .ok grp := by
  unfold parse_split_groups at h
  dsimp only at h
  split at h
  · exact absurd h (by simp)
  split at h
  · exact absurd h (by simp)
  intro grp hgrp
  obtain ⟨g, _, hok⟩ := parseGroups_ok h grp hgrp
  exact ⟨g, hok⟩

/-- The shape of every parsed group: nonempty segments, all with
`1 ≤ start ≤ end`, and a label that is the canonical rendering of the
segments. -/
theorem parse_group_shape {s : List Char} {groups : List SplitGroup}
    (h : parse_split_groups s = .ok groups) :
    ∀ grp ∈ groups,
      grp.segments ≠ [] ∧
      grp.label = joinComma (grp.segments.map segmentChars) ∧
      ∀ se ∈ grp.segments, 1 ≤ se.1 ∧ se.1 ≤ se.2 := by
  intro grp hgrp
  obtain ⟨g, hok⟩ := parse_split_groups_ok h grp hgrp
  obtain ⟨rs, hps, hrs, hlabel, hsegs⟩ := parseGroup_ok hok
  obtain ⟨_, hall⟩ := parseParts_ok hps
  refine ⟨?_, ?_, ?_⟩
  · rw [hsegs]
    simpa using hrs
  · rw [hlabel, hsegs, List.map_map]
    apply congrArg
    apply List.map_congr_left
    intro r hr
    exact ((hall r hr).2.2).symm ▸ rfl
  · intro se hse
    rw [hsegs] at hse
    obtain ⟨r, hr, hre⟩ := List.mem_map.mp hse
    obtain ⟨h1, h2, _⟩ := hall r hr
    subst hre
    exact ⟨h1, h2⟩

/-- Total pages a parse result extracts: Σ (end − start + 1) over all
segments. -/
def totalExtractedPages (groups : List SplitGroup) : Nat :=
  ((allSegments groups).map (fun se => se.2 - se.1 + 1)).sum

theorem segCheckLoop_ok (tp : Nat) :
    ∀ (segs : List (Nat × Nat)) (acc : Nat),
      (∀ se ∈ segs, se.2 ≤ tp) →
      acc + (segs.map (fun se => se.2 - se.1 + 1)).sum
        ≤ preflight_max_total_extracted_pages →
      segCheckLoop tp segs acc
        = .ok (acc + (segs.map (fun se => se.2 - se.1 + 1)).sum) := by
  intro segs
  induction segs with
  | nil =>
    intro acc h1 h2
    simp [segCheckLoop]
  | cons se rest ih =>
    intro acc h1 h2
    rcases se with ⟨s, e⟩
    have he : e ≤ tp := h1 (s, e) (List.mem_cons_self _ _)
    have hsum : (((s, e) :: rest).map (fun se => se.2 - se.1 + 1)).sum
        = (e - s + 1) + (rest.map (fun se => se.2 - se.1 + 1)).sum := by
      simp
    rw [hsum] at h2
    unfold segCheckLoop
    rw [if_neg (by omega)]
    dsimp only
    rw [if_neg (by unfold preflight_max_total_extracted_pages at h2 ⊢; omega)]
    rw [ih (acc + (e - s + 1)) (fun x hx => h1 x (List.mem_cons_of_mem _ hx)) (by omega)]
    rw [hsum]
    congr 1
    omega

theorem segCheckLoop_err (tp : Nat) :
    ∀ (segs : List (Nat × Nat)) (acc : Nat),
      acc ≤ preflight_max_total_extracted_pages →
      ((∃ se ∈ segs, tp < se.2) ∨
        preflight_max_total_extracted_pages
          < acc + (segs.map (fun se => se.2 - se.1 + 1)).sum) →
      ∃ msg, segCheckLoop tp segs acc = .error msg := by
  intro segs
  induction segs with
  | nil =>
    intro acc hacc h
    rcases h with ⟨se, hmem, _⟩ | h
    · simp at hmem
    · simp only [List.map_nil, List.sum_nil, Nat.add_zero] at h
      exact absurd hacc (by omega)
  | cons se rest ih =>
    intro acc hacc h
    rcases se with ⟨s, e⟩
    unfold segCheckLoop
    by_cases hviol : e > tp
    · exact ⟨_, by rw [if_pos (by omega)]⟩
    · rw [if_neg (by omega)]
      dsimp only
      by_cases hover : acc + (e - s + 1) > preflight_max_total_extracted_pages
      · exact ⟨_, by rw [if_pos (by omega)]⟩
      · rw [if_neg (by omega)]
        apply ih (acc + (e - s + 1)) (by omega)
        rcases h with ⟨se', hmem, hv⟩ | h
        · rcases List.mem_cons.mp hmem with rfl | hmem'
          · exact absurd hv (by omega)
          · exact Or.inl ⟨se', hmem', hv⟩
        · right
          have hsum : (((s, e) :: rest).map (fun se => se.2 - se.1 + 1)).sum
              = (e - s + 1) + (rest.map (fun se => se.2 - se.1 + 1)).sum := by
            simp
          rw [hsum] at h
          omega

/-- C7: under a parseable specification, the final preflight state is FAILED
(with a rejection reason) exactly when the input is missing, oversized
(> 1 GB), over the page limit (20000), over the output limit (2000), has a
segment past the source's page count, or extracts more than 100000 pages in
total; otherwise it is SUCCESS carrying the summary metrics. The task is
declared with `max_retries=0` and never retries. -/
theorem C7_preflight_validator (env : PreflightEnv) (groups : List SplitGroup)
    (hp : parse_split_groups env.pageRangesText = .ok groups) :
    ((preflight_split_job env).status = .FAILED ↔
      (env.inputFound = false ∨ env.sizeBytes > preflight_max_bytes ∨
       env.totalPages > preflight_max_pages ∨
       groups.length > preflight_max_outputs ∨
       (∃ se ∈ allSegments groups, env.totalPages < se.2) ∨
       totalExtractedPages groups > preflight_max_total_extracted_pages)) ∧
    ((preflight_split_job env).status = .FAILED →
      (preflight_split_job env).error ≠ none) ∧
    ((preflight_split_job env).status ≠ .FAILED →
      (preflight_split_job env).status = .SUCCESS ∧
      (preflight_split_job env).error = none ∧
      (preflight_split_job env).progress = 100 ∧
      (preflight_split_job env).file_size_bytes = some env.sizeBytes ∧
      (preflight_split_job env).page_count = some env.totalPages ∧
      (preflight_split_job env).outputs_requested = some groups.length ∧
      (preflight_split_job env).total_extracted_pages
        = some (totalExtractedPages groups)) ∧
    preflight_split_job_max_retries = 0 := by
  by_cases h1 : env.inputFound
  case neg =>
    have hst : preflight_split_job env
        = preflightFail ⟨.RUNNING, 0, none, none, none, none, none⟩
          "Input PDF not found for preflight" := by
      simp [preflight_split_job, h1]
    refine ⟨iff_of_true (by simp [hst, preflightFail])
        (Or.inl (by simpa using h1)), ?_, ?_, rfl⟩
    · intro _
      simp [hst, preflightFail]
    · intro hcon
      exact absurd (by simp [hst, preflightFail]) hcon
  case pos =>
  by_cases h2 : env.sizeBytes > preflight_max_bytes
  · have hst : preflight_split_job env
        = preflightFail ⟨.RUNNING, 10, none, some env.sizeBytes, none, none, none⟩
          "PDF file is too large. Maximum allowed size is 1GB." := by
      simp only [preflight_split_job, h1, Bool.not_true, if_false, if_pos h2]
      rfl
    refine ⟨iff_of_true (by simp [hst, preflightFail]) (Or.inr (Or.inl h2)),
      ?_, ?_, rfl⟩
    · intro _
      simp [hst, preflightFail]
    · intro hcon
      exact absurd (by simp [hst, preflightFail]) hcon
  · by_cases h3 : env.totalPages > preflight_max_pages
    · have hst : preflight_split_job env
          = preflightFail ⟨.RUNNING, 30, none, some env.sizeBytes,
              some env.totalPages, none, none⟩
            ("PDF has too many pages (" ++ String.mk (natChars env.totalPages)
              ++ "). Maximum allowed is 20000.") := by
        simp only [preflight_split_job, h1, Bool.not_true, if_false, if_neg h2, hp,
          if_pos h3]
        rfl
      refine ⟨iff_of_true (by simp [hst, preflightFail])
          (Or.inr (Or.inr (Or.inl h3))), ?_, ?_, rfl⟩
      · intro _
        simp [hst, preflightFail]
      · intro hcon
        exact absurd (by simp [hst, preflightFail]) hcon
    · by_cases h4 : groups.length > preflight_max_outputs
      · have hst : preflight_split_job env
            = preflightFail ⟨.RUNNING, 60, none, some env.sizeBytes,
                some env.totalPages, some groups.length, none⟩
              ("Too many split outputs requested ("
                ++ String.mk (natChars groups.length)
                ++ "). Maximum allowed is 2000.") := by
          simp only [preflight_split_job, h1, Bool.not_true, if_false, if_neg h2,
            hp, if_neg h3, if_pos h4]
          rfl
        refine ⟨iff_of_true (by simp [hst, preflightFail])
            (Or.inr (Or.inr (Or.inr (Or.inl h4)))), ?_, ?_, rfl⟩
        · intro _
          simp [hst, preflightFail]
        · intro hcon
          exact absurd (by simp [hst, preflightFail]) hcon
      · by_cases h5 : (∃ se ∈ allSegments groups, env.totalPages < se.2) ∨
            preflight_max_total_extracted_pages < totalExtractedPages groups
        · obtain ⟨msg, hmsg⟩ := segCheckLoop_err env.totalPages (allSegments groups) 0
            (by unfold preflight_max_total_extracted_pages; omega)
            (by simpa [totalExtractedPages] using h5)
          have hst : preflight_split_job env
              = preflightFail ⟨.RUNNING, 60, none, some env.sizeBytes,
                  some env.totalPages, some groups.length, none⟩ msg := by
            simp only [preflight_split_job, h1, Bool.not_true, if_false, if_neg h2,
              hp, if_neg h3, if_neg h4, hmsg]
            rfl
          refine ⟨iff_of_true (by simp [hst, preflightFail]) ?_, ?_, ?_, rfl⟩
          · rcases h5 with h5 | h5
            · exact Or.inr (Or.inr (Or.inr (Or.inr (Or.inl h5))))
            · exact Or.inr (Or.inr (Or.inr (Or.inr (Or.inr h5))))
          · intro _
            simp [hst, preflightFail]
          · intro hcon
            exact absurd (by simp [hst, preflightFail]) hcon
        · push_neg at h5
          obtain ⟨hseg, hsum⟩ := h5
          have hok := segCheckLoop_ok env.totalPages (allSegments groups) 0
            (fun se hse => by
              have := hseg se hse
              omega)
            (by simpa [totalExtractedPages] using hsum)
          have hst : preflight_split_job env
              = { status := .SUCCESS, progress := 100, error := none,
                  file_size_bytes := some env.sizeBytes,
                  page_count := some env.totalPages,
                  outputs_requested := some groups.length,
                  total_extracted_pages := some (totalExtractedPages groups) } := by
            simp only [preflight_split_job, h1, Bool.not_true, if_false, if_neg h2,
              hp, if_neg h3, if_neg h4, hok]
            simp [totalExtractedPages]
          refine ⟨iff_of_false (by simp [hst]) ?_, ?_, ?_, rfl⟩
          · push_neg
            refine ⟨by simpa using h1, by omega, by omega, by omega, ?_, by omega⟩
            intro se hse
            have := hseg se hse
            omega
          · intro hcon
            exact absurd hcon (by simp [hst])
          · intro _
            simp [hst]

theorem C7_preflight_validator_witness :
    (preflight_split_job ⟨true, 1000, 50, "1-3, 5; 7".data⟩).status = .SUCCESS :=
  ((C7_preflight_validator ⟨true, 1000, 50, "1-3, 5; 7".data⟩
      [⟨"1-3, 5".data, [(1, 3), (5, 5)]⟩, ⟨"7".data, [(7, 7)]⟩] rfl).2.2.1
    (by intro hcon
        have := (C7_preflight_validator ⟨true, 1000, 50, "1-3, 5; 7".data⟩
          [⟨"1-3, 5".data, [(1, 3), (5, 5)]⟩, ⟨"7".data, [(7, 7)]⟩] rfl).1.mp hcon
        revert this
        decide)).1

/-! ## C10: canonical labels survive another parse

The normalized label of every parsed group is `', '.join` of canonical
segment texts; the lemmas below show `normalize_split_spec` fixes such
strings and `parse_split_groups` maps them back to exactly the original
segments. -/

theorem digit_toNat {c : Char} (h : isDigitChar c = true) :
    48 ≤ c.toNat ∧ c.toNat ≤ 57 := by
  simp only [isDigitChar, Bool.and_eq_true, decide_eq_true_eq] at h
  exact h

theorem digit_ne {c x : Char} (h : isDigitChar c = true)
    (hx : x.toNat < 48 ∨ 57 < x.toNat) : c ≠ x := by
  intro hcx
  have hv := digit_toNat h
  subst hcx
  omega

theorem digit_not_space {c : Char} (h : isDigitChar c = true) :
    isPySpace c = false := by
  have h1 : c ≠ ' ' := digit_ne h (by decide)
  have h2 : c ≠ '\t' := digit_ne h (by decide)
  have h3 : c ≠ '\n' := digit_ne h (by decide)
  have h4 : c ≠ '\r' := digit_ne h (by decide)
  have h5 : c ≠ '\x0b' := digit_ne h (by decide)
  have h6 : c ≠ '\x0c' := digit_ne h (by decide)
  simp [isPySpace, h1, h2, h3, h4, h5, h6]

/-- The grammar of canonical label text: digit and dash characters, with
every comma written exactly as `', '` and followed by a digit. Every stage
of `normalize_split_spec` fixes such strings. -/
inductive CanonTail : List Char → Prop
  | nil : CanonTail []
  | digit (c : Char) (h : isDigitChar c = true) (rest : List Char) :
      CanonTail rest → CanonTail (c :: rest)
  | dash (rest : List Char) : CanonTail rest → CanonTail ('-' :: rest)
  | commaSpace (c : Char) (h : isDigitChar c = true) (rest : List Char) :
      CanonTail (c :: rest) → CanonTail (',' :: ' ' :: c :: rest)

theorem canonTail_chars {l : List Char} (h : CanonTail l) :
    ∀ c ∈ l, isDigitChar c = true ∨ c = '-' ∨ c = ',' ∨ c = ' ' := by
  induction h with
  | nil => simp
  | digit c hc rest _ ih =>
    intro x hx
    rcases List.mem_cons.mp hx with rfl | hx
    · exact Or.inl hc
    · exact ih x hx
  | dash rest _ ih =>
    intro x hx
    rcases List.mem_cons.mp hx with rfl | hx
    · exact Or.inr (Or.inl rfl)
    · exact ih x hx
  | commaSpace c hc rest _ ih =>
    intro x hx
    rcases List.mem_cons.mp hx with rfl | hx
    · exact Or.inr (Or.inr (Or.inl rfl))
    · rcases List.mem_cons.mp hx with rfl | hx
      · exact Or.inr (Or.inr (Or.inr rfl))
      · exact ih x hx

theorem canonTail_head_not_space {l : List Char} (h : CanonTail l) :
    ∀ c rest, l = c :: rest → isPySpace c = false := by
  cases h with
  | nil => intro c rest hcon; cases hcon
  | digit c hc rest _ =>
    intro c' rest' he
    injection he with h1 _
    subst h1
    exact digit_not_space hc
  | dash rest _ =>
    intro c' rest' he
    injection he with h1 _
    subst h1
    decide
  | commaSpace c hc rest _ =>
    intro c' rest' he
    injection he with h1 _
    subst h1
    decide

theorem canonTail_last_not_space {l : List Char} (h : CanonTail l) :
    ∀ c, l.getLast? = some c → isPySpace c = false := by
  induction h with
  | nil => intro c hcon; cases hcon
  | digit c hc rest hrest ih =>
    intro x hx
    cases rest with
    | nil =>
      simp only [List.getLast?_singleton, Option.some.injEq] at hx
      subst hx
      exact digit_not_space hc
    | cons r rs =>
      rw [List.getLast?_cons_cons] at hx
      exact ih x hx
  | dash rest hrest ih =>
    intro x hx
    cases rest with
    | nil =>
      simp only [List.getLast?_singleton, Option.some.injEq] at hx
      subst hx
      decide
    | cons r rs =>
      rw [List.getLast?_cons_cons] at hx
      exact ih x hx
  | commaSpace c hc rest hcr ih =>
    intro x hx
    rw [List.getLast?_cons_cons, List.getLast?_cons_cons] at hx
    exact ih x hx

theorem dropWhile_eq_self_of_head {p : Char → Bool} {l : List Char}
    (h : ∀ c rest, l = c :: rest → p c = false) : l.dropWhile p = l := by
  cases l with
  | nil => rfl
  | cons c cs =>
    rw [List.dropWhile_cons, h c cs rfl]
    simp

theorem lstrip_canon {l : List Char} (h : CanonTail l) : lstrip l = l :=
  dropWhile_eq_self_of_head (canonTail_head_not_space h)

theorem rstrip_of_last {l : List Char}
    (h : ∀ c, l.getLast? = some c → isPySpace c = false) : rstrip l = l := by
  unfold rstrip
  rcases hrev : l.reverse with _ | ⟨c, t⟩
  · simp [List.reverse_eq_nil_iff.mp hrev]
  · have hlast : l.getLast? = some c := by
      rw [← List.head?_reverse, hrev]
      rfl
    rw [List.dropWhile_cons, h c hlast]
    simp only [if_false, Bool.false_eq_true]
    rw [← hrev, List.reverse_reverse]

theorem pyStrip_canon {l : List Char} (h : CanonTail l) : pyStrip l = l := by
  unfold pyStrip
  rw [lstrip_canon h, rstrip_of_last (canonTail_last_not_space h)]

theorem map_self {f : Char → Char} : ∀ l : List Char,
    (∀ c ∈ l, f c = c) → l.map f = l
  | [], _ => rfl
  | c :: cs, h => by
    rw [List.map_cons, h c (List.mem_cons_self _ _),
      map_self cs (fun x hx => h x (List.mem_cons_of_mem _ hx))]

theorem replaceNbsp_canon {l : List Char} (h : CanonTail l) : replaceNbsp l = l := by
  unfold replaceNbsp
  apply map_self
  intro c hc
  rcases canonTail_chars h c hc with hd | rfl | rfl | rfl
  · have hnc : ¬c = ' ' := digit_ne hd (x := ' ') (by decide)
    simp [hnc]
  · rfl
  · rfl
  · rfl

theorem replaceDashes_canon {l : List Char} (h : CanonTail l) : replaceDashes l = l := by
  unfold replaceDashes
  apply map_self
  intro c hc
  rcases canonTail_chars h c hc with hd | rfl | rfl | rfl
  · refine if_neg ?_
    simp only [Bool.or_eq_true, decide_eq_true_eq, not_or]
    exact ⟨⟨digit_ne hd (x := '–') (by decide), digit_ne hd (x := '—') (by decide)⟩,
      digit_ne hd (x := '‑') (by decide)⟩
  · rfl
  · rfl
  · rfl

theorem wsCollapseAux_canon {l : List Char} (h : CanonTail l) :
    wsCollapseAux false l = l ∧ wsCollapseAux true l = l := by
  induction h with
  | nil => exact ⟨rfl, rfl⟩
  | digit c hc rest _ ih =>
    have hs := digit_not_space hc
    constructor <;> simp [wsCollapseAux, hs, ih.1]
  | dash rest _ ih =>
    constructor <;> simp [wsCollapseAux, show isPySpace '-' = false from rfl, ih.1]
  | commaSpace c hc rest _ ih =>
    have hs := digit_not_space hc
    have htail : wsCollapseAux false rest = rest := by
      have h1 := ih.1
      simp only [wsCollapseAux, hs, Bool.false_eq_true, if_false,
        List.cons.injEq, true_and] at h1
      exact h1
    constructor <;>
      simp [wsCollapseAux, show isPySpace ',' = false from rfl,
        show isPySpace ' ' = true from rfl, hs, htail]

theorem wsCollapse_canon {l : List Char} (h : CanonTail l) : wsCollapse l = l :=
  (wsCollapseAux_canon h).1

theorem commaSubAux_canon {l : List Char} (h : CanonTail l) :
    commaSubAux false [] l = l ∧ commaSubAux true [] l = l := by
  induction h with
  | nil => exact ⟨rfl, rfl⟩
  | digit c hc rest _ ih =>
    have hs := digit_not_space hc
    have hnc : ¬c = ',' := digit_ne hc (x := ',') (by decide)
    constructor <;> simp [commaSubAux, hs, hnc, ih.1]
  | dash rest _ ih =>
    constructor <;>
      simp [commaSubAux, show isPySpace '-' = false from rfl,
        show ¬('-' = ',') from by decide, ih.1]
  | commaSpace c hc rest _ ih =>
    have hs := digit_not_space hc
    have hnc : ¬c = ',' := digit_ne hc (x := ',') (by decide)
    have htail : commaSubAux false [] rest = rest := by
      have h1 := ih.1
      simp only [commaSubAux, hs, Bool.false_eq_true, if_false, hnc,
        List.reverse_nil, List.nil_append, List.cons.injEq, true_and] at h1
      exact h1
    constructor <;>
      simp [commaSubAux, show isPySpace ',' = false from rfl,
        show isPySpace ' ' = true from rfl, hs, hnc, htail]

theorem commaSub_canon {l : List Char} (h : CanonTail l) : commaSub l = l :=
  (commaSubAux_canon h).1

theorem normalize_canon {l : List Char} (h : CanonTail l) :
    normalize_split_spec l = l := by
  unfold normalize_split_spec
  dsimp only
  rw [replaceNbsp_canon h, pyStrip_canon h, replaceDashes_canon h,
    wsCollapse_canon h, commaSub_canon h, pyStrip_canon h]

theorem takeWhile_all {p : Char → Bool} : ∀ {A : List Char},
    (∀ c ∈ A, p c = true) → A.takeWhile p = A := by
  intro A
  induction A with
  | nil => intro _; rfl
  | cons a A ih =>
    intro h
    rw [List.takeWhile_cons, h a (List.mem_cons_self _ _)]
    simp only [if_true]
    rw [ih (fun c hc => h c (List.mem_cons_of_mem _ hc))]

theorem dropWhile_all {p : Char → Bool} : ∀ {A : List Char},
    (∀ c ∈ A, p c = true) → A.dropWhile p = [] := by
  intro A
  induction A with
  | nil => intro _; rfl
  | cons a A ih =>
    intro h
    rw [List.dropWhile_cons, h a (List.mem_cons_self _ _)]
    simp only [if_true]
    exact ih (fun c hc => h c (List.mem_cons_of_mem _ hc))

theorem takeWhile_append_stop {p : Char → Bool} {b : Char} {B : List Char}
    (hb : p b = false) : ∀ {A : List Char}, (∀ c ∈ A, p c = true) →
    (A ++ b :: B).takeWhile p = A := by
  intro A
  induction A with
  | nil =>
    intro _
    simp only [List.nil_append, List.takeWhile_cons, hb]
    simp
  | cons a A ih =>
    intro h
    rw [List.cons_append, List.takeWhile_cons, h a (List.mem_cons_self _ _)]
    simp only [if_true]
    rw [ih (fun c hc => h c (List.mem_cons_of_mem _ hc))]

theorem dropWhile_append_stop {p : Char → Bool} {b : Char} {B : List Char}
    (hb : p b = false) : ∀ {A : List Char}, (∀ c ∈ A, p c = true) →
    (A ++ b :: B).dropWhile p = b :: B := by
  intro A
  induction A with
  | nil =>
    intro _
    simp only [List.nil_append, List.dropWhile_cons, hb]
    simp
  | cons a A ih =>
    intro h
    rw [List.cons_append, List.dropWhile_cons, h a (List.mem_cons_self _ _)]
    simp only [if_true]
    exact ih (fun c hc => h c (List.mem_cons_of_mem _ hc))

/-! Facts about `segmentChars`. -/

theorem segmentChars_ne_nil (se : Nat × Nat) : segmentChars se ≠ [] := by
  unfold segmentChars
  split
  · rcases hnc : natChars se.1 with _ | ⟨c, t⟩
    · exact absurd hnc (natChars_ne_nil _)
    · simp
  · exact natChars_ne_nil _

theorem segmentChars_chars {se : Nat × Nat} :
    ∀ c ∈ segmentChars se, isDigitChar c = true ∨ c = '-' := by
  unfold segmentChars
  split
  · intro c hc
    rcases List.mem_append.mp hc with hc | hc
    · exact Or.inl (natChars_all_digits _ c hc)
    · rcases List.mem_cons.mp hc with rfl | hc
      · exact Or.inr rfl
      · exact Or.inl (natChars_all_digits _ c hc)
  · intro c hc
    exact Or.inl (natChars_all_digits _ c hc)

theorem segmentChars_no_space {se : Nat × Nat} :
    ∀ c ∈ segmentChars se, isPySpace c = false := by
  intro c hc
  rcases segmentChars_chars c hc with hd | rfl
  · exact digit_not_space hd
  · rfl

theorem segmentChars_no_comma {se : Nat × Nat} :
    ∀ c ∈ segmentChars se, c ≠ ',' := by
  intro c hc
  rcases segmentChars_chars c hc with hd | rfl
  · exact digit_ne hd (x := ',') (by decide)
  · decide

theorem segmentChars_head_digit (se : Nat × Nat) :
    ∃ c t, segmentChars se = c :: t ∧ isDigitChar c = true := by
  unfold segmentChars
  split
  · rcases hnc : natChars se.1 with _ | ⟨c, t⟩
    · exact absurd hnc (natChars_ne_nil _)
    · refine ⟨c, t ++ '-' :: natChars se.2, by simp, ?_⟩
      exact natChars_all_digits se.1 c (hnc ▸ List.mem_cons_self _ _)
  · rcases hnc : natChars se.1 with _ | ⟨c, t⟩
    · exact absurd hnc (natChars_ne_nil _)
    · exact ⟨c, t, rfl, natChars_all_digits se.1 c (hnc ▸ List.mem_cons_self _ _)⟩

theorem lstrip_of_no_space {l : List Char} (h : ∀ c ∈ l, isPySpace c = false) :
    lstrip l = l := by
  apply dropWhile_eq_self_of_head
  intro c rest he
  exact h c (he ▸ List.mem_cons_self _ _)

theorem mem_of_getLast?_eq {l : List Char} {c : Char} (h : l.getLast? = some c) :
    c ∈ l := by
  rw [← List.head?_reverse] at h
  rcases hrev : l.reverse with _ | ⟨a, t⟩
  · rw [hrev] at h
    cases h
  · rw [hrev] at h
    injection h with h
    subst h
    rw [← List.mem_reverse, hrev]
    exact List.mem_cons_self _ _

theorem pyStrip_of_no_space {l : List Char} (h : ∀ c ∈ l, isPySpace c = false) :
    pyStrip l = l := by
  unfold pyStrip
  rw [lstrip_of_no_space h]
  apply rstrip_of_last
  intro c hc
  exact h c (mem_of_getLast?_eq hc)

theorem pyStrip_cons_space (x : List Char) : pyStrip (' ' :: x) = pyStrip x := by
  unfold pyStrip lstrip
  rw [List.dropWhile_cons]
  simp [show isPySpace ' ' = true from rfl]

/-! `CanonTail` holds of every canonical label. -/

theorem canonTail_digits_append {rest : List Char} (hrest : CanonTail rest) :
    ∀ {d : List Char}, (∀ c ∈ d, isDigitChar c = true) → CanonTail (d ++ rest) := by
  intro d
  induction d with
  | nil => intro _; simpa using hrest
  | cons a d ih =>
    intro h
    rw [List.cons_append]
    exact CanonTail.digit a (h a (List.mem_cons_self _ _)) _
      (ih (fun c hc => h c (List.mem_cons_of_mem _ hc)))

theorem canonTail_segmentChars_append {rest : List Char} (hrest : CanonTail rest)
    (se : Nat × Nat) : CanonTail (segmentChars se ++ rest) := by
  unfold segmentChars
  split
  · rw [List.append_assoc, List.cons_append]
    exact canonTail_digits_append
      (CanonTail.dash _ (canonTail_digits_append hrest (natChars_all_digits _)))
      (natChars_all_digits _)
  · exact canonTail_digits_append hrest (natChars_all_digits _)

theorem joinComma_cons_cons (p q : List Char) (rest : List (List Char)) :
    joinComma (p :: q :: rest) = p ++ ',' :: ' ' :: joinComma (q :: rest) := rfl

theorem canonTail_joinComma : ∀ (segs : List (Nat × Nat)),
    CanonTail (joinComma (segs.map segmentChars)) := by
  intro segs
  induction segs with
  | nil => exact CanonTail.nil
  | cons se rest ih =>
    cases rest with
    | nil =>
      show CanonTail (joinComma [segmentChars se])
      have : joinComma [segmentChars se] = segmentChars se ++ [] := by
        simp [joinComma]
      rw [this]
      exact canonTail_segmentChars_append CanonTail.nil se
    | cons se2 rest2 =>
      rw [List.map_cons, List.map_cons, joinComma_cons_cons]
      obtain ⟨c, t, hct, hcd⟩ := segmentChars_head_digit se2
      have htail : CanonTail (',' :: ' ' :: joinComma (segmentChars se2
          :: rest2.map segmentChars)) := by
        have hj : joinComma (segmentChars se2 :: rest2.map segmentChars)
            = c :: (t ++ ',' :: ' ' :: joinComma (rest2.map segmentChars))
            ∨ joinComma (segmentChars se2 :: rest2.map segmentChars) = c :: t := by
          cases rest2 with
          | nil =>
            right
            simp [joinComma, hct]
          | cons x xs =>
            left
            rw [List.map_cons, joinComma_cons_cons, hct]
            simp
        rcases hj with hj | hj
        · rw [hj]
          have := ih
          rw [List.map_cons] at this
          rw [hj] at this
          exact CanonTail.commaSpace c hcd _ this
        · rw [hj]
          have := ih
          rw [List.map_cons] at this
          rw [hj] at this
          exact CanonTail.commaSpace c hcd _ this
      exact canonTail_segmentChars_append htail se

/-! `pySplit`/strip round trip on canonical labels. -/

theorem pySplit_ne_nil (sep : Char) : ∀ l, pySplit sep l ≠ []
  | [] => by simp [pySplit]
  | c :: cs => by
    simp only [pySplit]
    split
    · simp
    · split
      · simp
      · simp

theorem pySplit_append_no_comma : ∀ (A l : List Char), (∀ c ∈ A, c ≠ ',') →
    ∃ p t, pySplit ',' l = p :: t ∧ pySplit ',' (A ++ l) = (A ++ p) :: t := by
  intro A
  induction A with
  | nil =>
    intro l _
    rcases hps : pySplit ',' l with _ | ⟨p, t⟩
    · exact absurd hps (pySplit_ne_nil ',' l)
    · exact ⟨p, t, rfl, by simp [hps]⟩
  | cons a A ih =>
    intro l h
    obtain ⟨p, t, hl, hAl⟩ := ih l (fun c hc => h c (List.mem_cons_of_mem _ hc))
    have ha : ¬a = ',' := h a (List.mem_cons_self _ _)
    refine ⟨p, t, hl, ?_⟩
    rw [List.cons_append]
    simp only [pySplit, ha, if_false, hAl]
    simp

/-- Splitting a canonical label on commas, stripping each piece, and
filtering empties recovers exactly the canonical segment texts. -/
theorem split_strip_filter_joinComma : ∀ (segs : List (Nat × Nat)), segs ≠ [] →
    ((pySplit ',' (joinComma (segs.map segmentChars))).map pyStrip).filter
        (fun p => !p.isEmpty)
      = segs.map segmentChars := by
  intro segs
  induction segs with
  | nil => intro hcon; exact absurd rfl hcon
  | cons se rest ih =>
    intro _
    cases rest with
    | nil =>
      have hj : joinComma ([se].map segmentChars) = segmentChars se ++ [] := by
        simp [joinComma]
      rw [hj]
      obtain ⟨p, t, hsplit, hres⟩ :=
        pySplit_append_no_comma (segmentChars se) [] segmentChars_no_comma
      have hp : p = [] ∧ t = [] := by
        have : pySplit ',' ([] : List Char) = [[]] := rfl
        rw [this] at hsplit
        exact ⟨(List.cons.injEq _ _ _ _ ▸ hsplit.symm).1,
          (List.cons.injEq _ _ _ _ ▸ hsplit.symm).2⟩
      rw [hres, hp.1, hp.2, List.append_nil]
      have hstrip : pyStrip (segmentChars se) = segmentChars se :=
        pyStrip_of_no_space segmentChars_no_space
      have hne2 : (segmentChars se).isEmpty = false := by
        rw [List.isEmpty_eq_false]
        exact segmentChars_ne_nil se
      simp [hstrip, hne2]
    | cons se2 rest2 =>
      rw [List.map_cons, List.map_cons, joinComma_cons_cons]
      obtain ⟨p, t, hsplit, hres⟩ := pySplit_append_no_comma (segmentChars se)
        (',' :: ' ' :: joinComma (segmentChars se2 :: List.map segmentChars rest2))
        segmentChars_no_comma
      have hsplit2 : pySplit ','
          (',' :: ' ' :: joinComma (segmentChars se2 :: List.map segmentChars rest2))
          = [] :: pySplit ','
              (' ' :: joinComma (segmentChars se2 :: List.map segmentChars rest2)) := by
        simp [pySplit]
      rcases hinner : pySplit ','
          (joinComma (segmentChars se2 :: List.map segmentChars rest2))
        with _ | ⟨q, u⟩
      · exact absurd hinner (pySplit_ne_nil ',' _)
      · have hspace : pySplit ','
            (' ' :: joinComma (segmentChars se2 :: List.map segmentChars rest2))
            = (' ' :: q) :: u := by
          simp only [pySplit, show (' ' = ',') = False from by simp, if_false, hinner]
        rw [hsplit2, hspace] at hsplit
        have hp : p = [] ∧ t = (' ' :: q) :: u := by
          exact ⟨(List.cons.injEq _ _ _ _ ▸ hsplit.symm).1,
            (List.cons.injEq _ _ _ _ ▸ hsplit.symm).2⟩
        rw [hres, hp.1, hp.2, List.append_nil]
        have hstrip : pyStrip (segmentChars se) = segmentChars se :=
          pyStrip_of_no_space segmentChars_no_space
        have hne2 : (segmentChars se).isEmpty = false := by
          rw [List.isEmpty_eq_false]
          exact segmentChars_ne_nil se
        have hih := ih (by simp)
        simp only [List.map_cons] at hih
        rw [hinner] at hih
        calc ((List.map pyStrip (segmentChars se :: (' ' :: q) :: u)).filter
                (fun p => !p.isEmpty))
            = segmentChars se :: ((List.map pyStrip (q :: u)).filter
                (fun p => !p.isEmpty)) := by
              simp only [List.map_cons, pyStrip_cons_space, hstrip,
                List.filter_cons, hne2]
              simp
          _ = segmentChars se :: segmentChars se2 :: List.map segmentChars rest2 := by
              rw [hih]

theorem dropWhile_eq_self_of_all {p : Char → Bool} {l : List Char}
    (h : ∀ c ∈ l, p c = false) : l.dropWhile p = l :=
  dropWhile_eq_self_of_head (fun c rest he => h c (he ▸ List.mem_cons_self _ _))

theorem natChars_isEmpty_false (n : Nat) : (natChars n).isEmpty = false := by
  rw [List.isEmpty_eq_false]
  exact natChars_ne_nil n

theorem natChars_no_space (n : Nat) : ∀ c ∈ natChars n, isPySpace c = false :=
  fun c hc => digit_not_space (natChars_all_digits n c hc)

theorem matchRangePart_single (n : Nat) : matchRangePart (natChars n) = none := by
  unfold matchRangePart
  dsimp only
  rw [takeWhile_all (natChars_all_digits n), dropWhile_all (natChars_all_digits n),
    natChars_isEmpty_false]
  simp

theorem matchRangePart_range (s e : Nat) :
    matchRangePart (natChars s ++ '-' :: natChars e) = some (s, e) := by
  unfold matchRangePart
  dsimp only
  rw [takeWhile_append_stop (show isDigitChar '-' = false from rfl)
      (natChars_all_digits s),
    dropWhile_append_stop (show isDigitChar '-' = false from rfl)
      (natChars_all_digits s),
    natChars_isEmpty_false]
  simp only [Bool.false_eq_true, if_false]
  rw [List.dropWhile_cons]
  simp only [show isPySpace '-' = false from rfl, Bool.false_eq_true, if_false]
  rw [dropWhile_eq_self_of_all (natChars_no_space e),
    takeWhile_all (natChars_all_digits e), dropWhile_all (natChars_all_digits e),
    natChars_isEmpty_false]
  simp [digitsToNat_natChars]

theorem matchSinglePart_natChars (n : Nat) : matchSinglePart (natChars n) = some n := by
  unfold matchSinglePart
  have h2 : (natChars n).all isDigitChar = true :=
    List.all_eq_true.mpr (natChars_all_digits n)
  simp [natChars_isEmpty_false, h2, digitsToNat_natChars]

theorem parsePart_segmentChars (se : Nat × Nat) (h1 : 1 ≤ se.1) (h2 : se.1 ≤ se.2) :
    parsePart (segmentChars se) = .ok (se, segmentChars se) := by
  have hcanon : CanonTail (segmentChars se) := by
    have := canonTail_segmentChars_append CanonTail.nil se
    simpa using this
  unfold parsePart
  dsimp only
  rw [normalize_canon hcanon]
  rcases se with ⟨s, e⟩
  simp only at h1 h2
  by_cases hse : s = e
  · subst hse
    have hsc : segmentChars (s, s) = natChars s := by
      simp [segmentChars]
    rw [hsc, matchRangePart_single, matchSinglePart_natChars]
    dsimp only [Option.map]
    rw [if_neg (by simp; omega)]
    rw [hsc]
  · have hsc : segmentChars (s, e) = natChars s ++ '-' :: natChars e := by
      simp [segmentChars, hse]
    rw [hsc, matchRangePart_range]
    dsimp only
    rw [if_neg (by simp; omega)]
    rw [hsc]

theorem parseParts_segmentChars : ∀ (segs : List (Nat × Nat)),
    (∀ se ∈ segs, 1 ≤ se.1 ∧ se.1 ≤ se.2) →
    parseParts (segs.map segmentChars)
      = .ok (segs.map (fun se => (se, segmentChars se))) := by
  intro segs
  induction segs with
  | nil => intro _; rfl
  | cons se rest ih =>
    intro hv
    rw [List.map_cons]
    unfold parseParts
    rw [parsePart_segmentChars se (hv se (List.mem_cons_self _ _)).1
      (hv se (List.mem_cons_self _ _)).2]
    rw [ih (fun x hx => hv x (List.mem_cons_of_mem _ hx))]
    simp [Except.map]

theorem map_segmentChars_isEmpty_false {segs : List (Nat × Nat)} (hne : segs ≠ []) :
    (segs.map segmentChars).isEmpty = false := by
  rw [List.isEmpty_eq_false]
  simpa using hne

theorem parseGroup_canonical (segs : List (Nat × Nat))
    (hv : ∀ se ∈ segs, 1 ≤ se.1 ∧ se.1 ≤ se.2) (hne : segs ≠ []) :
    parseGroup (joinComma (segs.map segmentChars))
      = .ok ⟨joinComma (segs.map segmentChars), segs⟩ := by
  unfold parseGroup
  dsimp only
  rw [split_strip_filter_joinComma segs hne, map_segmentChars_isEmpty_false hne]
  simp only [Bool.false_eq_true, if_false]
  rw [parseParts_segmentChars segs hv]
  simp only [Except.map, List.map_map]
  have hsnd : (Prod.snd ∘ fun se : Nat × Nat => (se, segmentChars se))
      = segmentChars := rfl
  have hfst : (Prod.fst ∘ fun se : Nat × Nat => (se, segmentChars se))
      = id := rfl
  rw [hsnd, hfst, List.map_id]

theorem canonTail_no_sep {l : List Char} (h : CanonTail l) :
    ∀ c ∈ l, isGroupSep c = false := by
  intro c hc
  rcases canonTail_chars h c hc with hd | rfl | rfl | rfl
  · have h1 : ¬c = ';' := digit_ne hd (x := ';') (by decide)
    have h2 : ¬c = '\n' := digit_ne hd (x := '\n') (by decide)
    simp [isGroupSep, h1, h2]
  · rfl
  · rfl
  · rfl

theorem splitRunsAux_no_sep : ∀ (l acc : List Char),
    (∀ c ∈ l, isGroupSep c = false) → splitRunsAux false acc l = [acc ++ l] := by
  intro l
  induction l with
  | nil =>
    intro acc _
    simp [splitRunsAux]
  | cons c cs ih =>
    intro acc h
    simp only [splitRunsAux, h c (List.mem_cons_self _ _), Bool.false_eq_true, if_false]
    rw [ih (acc ++ [c]) (fun x hx => h x (List.mem_cons_of_mem _ hx))]
    simp

theorem splitRuns_canon {l : List Char} (h : CanonTail l) : splitRuns l = [l] := by
  unfold splitRuns
  rw [splitRunsAux_no_sep l [] (canonTail_no_sep h)]
  simp

theorem joinComma_map_ne_nil {segs : List (Nat × Nat)} (hne : segs ≠ []) :
    joinComma (segs.map segmentChars) ≠ [] := by
  cases segs with
  | nil => exact absurd rfl hne
  | cons se rest =>
    cases rest with
    | nil =>
      show joinComma [segmentChars se] ≠ []
      simpa [joinComma] using segmentChars_ne_nil se
    | cons se2 rest2 =>
      rw [List.map_cons, List.map_cons, joinComma_cons_cons]
      intro hcon
      rcases List.append_eq_nil.mp hcon with ⟨h1, _⟩
      exact segmentChars_ne_nil se h1

/-- Parsing a canonical label reproduces exactly its segments (and the label
itself). -/
theorem parse_canonical (segs : List (Nat × Nat))
    (hv : ∀ se ∈ segs, 1 ≤ se.1 ∧ se.1 ≤ se.2) (hne : segs ≠ []) :
    parse_split_groups (joinComma (segs.map segmentChars))
      = .ok [⟨joinComma (segs.map segmentChars), segs⟩] := by
  have hcanon := canonTail_joinComma segs
  have hLne : (joinComma (segs.map segmentChars)).isEmpty = false := by
    rw [List.isEmpty_eq_false]
    exact joinComma_map_ne_nil hne
  unfold parse_split_groups
  dsimp only
  rw [normalize_canon hcanon, hLne]
  simp only [Bool.false_eq_true, if_false]
  rw [splitRuns_canon hcanon]
  have hgroups : (([joinComma (segs.map segmentChars)].map pyStrip).filter
      (fun g => !g.isEmpty)) = [joinComma (segs.map segmentChars)] := by
    simp only [List.map_cons, List.map_nil, pyStrip_canon hcanon, List.filter_cons,
      hLne]
    simp
  rw [hgroups]
  unfold parseGroups
  rw [parseGroup_canonical segs hv hne]
  rfl

/-- C10: parsing is idempotent through normalized labels — re-parsing any
returned group's label yields exactly that group's segment list back (as a
single group with the same label), and every returned segment satisfies
`1 ≤ start ≤ end`. -/
theorem C10_parse_label_idempotent {s : List Char} {groups : List SplitGroup}
    (h : parse_split_groups s = .ok groups) :
    ∀ g ∈ groups,
      parse_split_groups g.label = .ok [⟨g.label, g.segments⟩] ∧
      ∀ se ∈ g.segments, 1 ≤ se.1 ∧ se.1 ≤ se.2 := by
  intro g hg
  obtain ⟨hne, hlabel, hvalid⟩ := parse_group_shape h g hg
  refine ⟨?_, hvalid⟩
  rw [hlabel]
  exact parse_canonical g.segments hvalid hne

theorem C10_parse_label_idempotent_witness :
    parse_split_groups "1-3, 5".data = .ok [⟨"1-3, 5".data, [(1, 3), (5, 5)]⟩] :=
  (C10_parse_label_idempotent
    (show parse_split_groups " 1 - 3 ,5 ; 7 ".data
        = .ok [⟨"1-3, 5".data, [(1, 3), (5, 5)]⟩, ⟨"7".data, [(7, 7)]⟩] from rfl)
    ⟨"1-3, 5".data, [(1, 3), (5, 5)]⟩ (List.mem_cons_self _ _)).1

end HyperlinkPOC
